import Mathlib

/-!
A shallow embedding of the `redicts` library (hierarchical redis-backed lock
and value proxy) together with proofs about its behaviour.

Python strings are modelled as `List Char` (`PyStr`); the redis backend is an
association list from keys to stored string values with an optional TTL.
Exceptions are modelled with `Except PyErr`.
-/

set_option autoImplicit false

/-- Model of a Python `str`: a list of characters. -/
abbrev PyStr := List Char

/-- The exception kinds raised by the library.  `valueError` stands for the
builtin `ValueError` (which the specification's taxonomy calls `InvalidPath`
when raised by path validation), `internalError` and `lockTimeout` for the
library's own exception classes from `errors.py`. -/
inductive PyErr : Type where
  | valueError : PyErr
  | internalError : PyErr
  | lockTimeout : PyErr
deriving DecidableEq, Repr

/-! ## Character-level string primitives

Models of the Python `str` operations used by the library: `split`,
`'.'.join`, containment, and `str`/`int` conversion. -/

/-- Model of Python `s.split(sep)` (split on every occurrence, `""` gives
`[""]`). -/
def splitChar (sep : Char) : PyStr → List PyStr
  | [] => [[]]
  | c :: rest =>
    let r := splitChar sep rest
    if c = sep then [] :: r
    else
      match r with
      | h :: t => (c :: h) :: t
      | [] => [[c]]

/-- Model of Python `sep.join(parts)` for a one-character separator. -/
def joinChar (sep : Char) : List PyStr → PyStr
  | [] => []
  | [x] => x
  | x :: rest => x ++ sep :: joinChar sep rest

/-- Model of Python `s.split(":", 2)`: at most two splits, the remainder of
the string stays in the third part. -/
def pySplit2 (sep : Char) (s : PyStr) : List PyStr :=
  match splitChar sep s with
  | p0 :: p1 :: p2 :: rest => [p0, p1, joinChar sep (p2 :: rest)]
  | l => l

/-- `leadB p l` is true iff the list `p` is an initial segment of `l`
(Python `l.startswith(p)` on strings). -/
def leadB {α : Type} [DecidableEq α] : List α → List α → Bool
  | [], _ => true
  | _ :: _, [] => false
  | a :: as, b :: bs => a = b && leadB as bs

/-- `containsSeq pat l` is true iff `pat` occurs contiguously inside `l`
(Python `pat in s` on strings). -/
def containsSeq {α : Type} [DecidableEq α] (pat : List α) : List α → Bool
  | [] => leadB pat []
  | a :: rest => leadB pat (a :: rest) || containsSeq pat rest

/-- The decimal digit character for `n < 10`. -/
def digitChar (n : Nat) : Char := Char.ofNat ('0'.toNat + n)

/-- Decimal digits, most significant first; enough fuel makes the recursion
structural (the quotient `n / 10` strictly shrinks, so `n + 1` steps always
suffice; see `natToChars_unfold`). -/
def natToCharsAux : Nat → Nat → PyStr
  | 0, _ => []
  | fuel + 1, n =>
    if n < 10 then [digitChar n]
    else natToCharsAux fuel (n / 10) ++ [digitChar (n % 10)]

/-- Decimal representation of a natural number (model of Python `str(n)` for
`n ≥ 0`). -/
def natToChars (n : Nat) : PyStr := natToCharsAux (n + 1) n

/-- Decimal representation of an integer (model of Python `str(n)`). -/
def intToChars : Int → PyStr
  | .ofNat n => natToChars n
  | .negSucc m => '-' :: natToChars (m + 1)

/-- Numeric value of a decimal digit character, if it is one. -/
def digitVal (c : Char) : Option Nat :=
  if '0' ≤ c ∧ c ≤ '9' then some (c.toNat - '0'.toNat) else none

/-- Accumulating decimal reader. -/
def readNatAux : PyStr → Nat → Option Nat
  | [], acc => some acc
  | c :: rest, acc =>
    match digitVal c with
    | some d => readNatAux rest (acc * 10 + d)
    | none => none

/-- Read a nonempty all-digit string as a natural number. -/
def readNat : PyStr → Option Nat
  | [] => none
  | l => readNatAux l 0

/-- Model of Python `int(s)` on the strings this library handles: an optional
sign followed by decimal digits; anything else raises `ValueError` (here:
`none`). -/
def pyIntChars : PyStr → Option Int
  | '-' :: rest => (readNat rest).map (fun n => -(n : Int))
  | '+' :: rest => (readNat rest).map (fun n => (n : Int))
  | l => (readNat l).map (fun n => (n : Int))

/-! ## Path utilities (`util.py`) -/

/-- `util.validate_key`: check that a key is a valid dotted path.  Raises
`ValueError` (the spec's `InvalidPath`) when empty, edge-dotted or containing
`..`. -/
def validate_key (key : PyStr) : Except PyErr Unit :=
  if key.length = 0 then .error .valueError
  else if key.head? = some '.' || key.getLast? = some '.' then .error .valueError
  else if containsSeq ['.', '.'] key then .error .valueError
  else .ok ()

/-- Everything up to (excluding) the last `'.'` of the list, or `none` when
there is no dot: a model of `key[:key.rindex('.')]` with the `ValueError` of
`rindex` on a dotless string mapped to `none`. -/
def cutAtLastDot : PyStr → Option PyStr
  | [] => none
  | c :: rest =>
    match cutAtLastDot rest with
    | some r => some (c :: r)
    | none => if c = '.' then some [] else none

/-- The proper ancestors produced by repeatedly cutting at the last dot.
The `while True` loop of `build_key_hierarchy` terminates because each cut
strictly shortens the key, so the initial length is enough fuel; the fuel
never runs out (see `hierarchyRestAux_fuel`). -/
def hierarchyRestAux : Nat → PyStr → List PyStr
  | 0, _ => []
  | fuel + 1, key =>
    match cutAtLastDot key with
    | some k2 => k2 :: hierarchyRestAux fuel k2
    | none => []

/-- `util.build_key_hierarchy`: the key followed by all of its parent keys,
deepest first. -/
def build_key_hierarchy (key : PyStr) : List PyStr :=
  key :: hierarchyRestAux key.length key

/-! ## Lock-token codec (`util.py`) -/

/-- The identity of a lock owner: the process id and the thread ident that
`build_lock_token` reads from the runtime. -/
structure Owner : Type where
  pid : Int
  tid : Int
deriving DecidableEq, Repr

/-- `util.build_lock_token`: `"{pid}:{tid}:{count}"` built from the *calling*
process/thread identity (passed explicitly here) and the lock count. -/
def build_lock_token (own : Owner) (count : Int) : PyStr :=
  intToChars own.pid ++ ':' :: intToChars own.tid ++ ':' :: intToChars count

/-- `util.parse_lock_token`: split on `":"` with maxsplit 2; fewer than three
parts raises `InternalError`, then each part goes through `int(...)`, which
raises `ValueError` on a non-integer part. -/
def parse_lock_token (token : PyStr) : Except PyErr (Int × Int × Int) :=
  let splitted := pySplit2 ':' token
  if splitted.length ≠ 3 then .error .internalError
  else
    match splitted with
    | [a, b, c] =>
      match pyIntChars a with
      | none => .error .valueError
      | some pid =>
        match pyIntChars b with
        | none => .error .valueError
        | some tid =>
          match pyIntChars c with
          | none => .error .valueError
          | some count => .ok (pid, tid, count)
    | _ => .error .internalError

/-! ## Nested mappings: flatten (`extract_keys`) and unflatten (`feed_to_nested`) -/

mutual
/-- A Python value as far as this library is concerned: a JSON scalar (its
payload modelled as an integer) or a `dict` with string keys. -/
inductive PyObj : Type where
  | scalar : Int → PyObj
  | dict : PyEntries → PyObj

/-- The bindings of a Python `dict`: an insertion-ordered sequence of
key/value pairs, as in Python. -/
inductive PyEntries : Type where
  | nil : PyEntries
  | cons : PyStr → PyObj → PyEntries → PyEntries
end

/-- A Python `dict` with string keys. -/
abbrev PyDict := PyEntries

/-- The number of bindings (`len(d)`). -/
def entriesLength : PyDict → Nat
  | .nil => 0
  | .cons _ _ rest => entriesLength rest + 1

/-- `d.get(k)`: first binding of `k`, if any. -/
def dictGet (d : PyDict) (k : PyStr) : Option PyObj :=
  match d with
  | .nil => none
  | .cons k0 v rest => if k0 = k then some v else dictGet rest k

/-- `d[k] = v`: replace the binding in place, or append a new one (Python
dicts keep insertion order). -/
def dictSet (d : PyDict) (k : PyStr) (v : PyObj) : PyDict :=
  match d with
  | .nil => .cons k v .nil
  | .cons k0 v0 rest => if k0 = k then .cons k v rest else .cons k0 v0 (dictSet rest k v)

/-- The dotted key produced by `extract_keys`:
`prefix + '.' + key if prefix else key`, generalised to a list of segments. -/
def dotJoin (pre : PyStr) (ps : List PyStr) : PyStr :=
  if pre = [] then joinChar '.' ps else pre ++ '.' :: joinChar '.' ps

/-- `util.extract_keys`: flatten a nested dict into `(dotted_key, scalar)`
pairs by depth-first traversal.  (The `ValueError` on non-string keys cannot
fire here because the model's keys are strings by construction.) -/
def extract_keys : PyDict → PyStr → List (PyStr × Int)
  | .nil, _ => []
  | .cons key (.scalar v) rest, pre =>
    (dotJoin pre [key], v) :: extract_keys rest pre
  | .cons key (.dict sub) rest, pre =>
    extract_keys sub (dotJoin pre [key]) ++ extract_keys rest pre

/-- The walking loop of `feed_to_nested` over the already-split path: walk
`keys`, overwriting any non-dict intermediate value with a fresh dict, then
assign the value at `last`. -/
def feedPath (d : PyDict) : List PyStr → PyStr → PyObj → PyDict
  | [], last, v => dictSet d last v
  | k :: rest, last, v =>
    match dictGet d k with
    | some (.dict sub) => dictSet d k (.dict (feedPath sub rest last v))
    | _ => dictSet d k (.dict (feedPath .nil rest last v))

/-- Split a nonempty list into its initial part and last element
(`keys.pop()`). -/
def splitLast {α : Type} : List α → Option (List α × α)
  | [] => none
  | [a] => some ([], a)
  | a :: b :: rest => (splitLast (b :: rest)).map (fun p => (a :: p.1, p.2))

/-- `util.feed_to_nested`: feed a dotted path with a value into a nested
dict.  (`full_key.split "."` is never empty, so the `none` branch is
unreachable.) -/
def feed_to_nested (nested : PyDict) (full_key : PyStr) (value : PyObj) : PyDict :=
  match splitLast (splitChar '.' full_key) with
  | some (keys, last) => feedPath nested keys last value
  | none => nested

/-! ### Specification-side helpers for the flatten/unflatten round trip -/

/-- Feed a list of flattened `(dotted_key, scalar)` pairs in order into a
dict. -/
def feedAll (pairs : List (PyStr × Int)) (d : PyDict) : PyDict :=
  pairs.foldl (fun acc p => feed_to_nested acc p.1 (.scalar p.2)) d

/-- The leaves of a nested dict: each one's path (list of segment keys) and
scalar payload, in traversal order. -/
def leafPaths : PyDict → List (List PyStr × Int)
  | .nil => []
  | .cons key (.scalar v) rest => ([key], v) :: leafPaths rest
  | .cons key (.dict sub) rest =>
    (leafPaths sub).map (fun p => (key :: p.1, p.2)) ++ leafPaths rest

/-- Discard empty sub-mappings, recursively. -/
def pruneD : PyDict → PyDict
  | .nil => .nil
  | .cons key (.scalar v) rest => .cons key (.scalar v) (pruneD rest)
  | .cons key (.dict sub) rest =>
    match pruneD sub with
    | .nil => pruneD rest
    | .cons k0 v0 p => .cons key (.dict (.cons k0 v0 p)) (pruneD rest)

/-- Scalar found by following a path of keys through nested dicts.  This is
the observation used to compare two dicts: two dicts with no empty
sub-mappings are equal as Python values iff they have the same `lookupPath`
on every path. -/
def lookupPath : PyDict → List PyStr → Option Int
  | _, [] => none
  | d, k :: rest =>
    match dictGet d k with
    | some (.scalar v) => if rest = [] then some v else none
    | some (.dict sub) => if rest = [] then none else lookupPath sub rest
    | none => none

/-- Well-formedness of a nested dict as fed to the round-trip law: at every
level the keys are nonempty, contain no `'.'`, and are pairwise distinct
(Python dict keys are always distinct; the key restrictions are the amended
round-trip hypothesis). -/
def cleanD : PyDict → Bool
  | .nil => true
  | .cons key v rest =>
    decide (key ≠ []) && key.all (fun c => decide (c ≠ '.')) &&
    !(dictGet rest key).isSome &&
    (match v with
     | .scalar _ => true
     | .dict sub => cleanD sub) &&
    cleanD rest

/-! ## The backend store

A model of the redis keyspace: an association list from keys to stored
values, each value a string with an optional TTL in seconds.  `SET` without
`EX` clears any TTL; `EXPIRE` sets it on an existing key.  Time does not
advance inside the model, so a TTL keeps the value it was set to. -/

/-- A stored value: the string payload and its remaining TTL (in seconds),
`none` when the key does not expire. -/
structure RVal : Type where
  value : PyStr
  ttl : Option Int
deriving DecidableEq, Repr

/-- The backend keyspace. -/
abbrev RStore := List (PyStr × RVal)

/-- `GET k` (full record). -/
def sget (s : RStore) (k : PyStr) : Option RVal :=
  match s with
  | [] => none
  | (k0, v) :: rest => if k0 = k then some v else sget rest k

/-- `DELETE k`. -/
def sdel (s : RStore) (k : PyStr) : RStore :=
  match s with
  | [] => []
  | (k0, v) :: rest => if k0 = k then sdel rest k else (k0, v) :: sdel rest k

/-- `SET k v EX ttl` (plain `SET` when `ttl = none`, which removes any
previous expiry). -/
def sset (s : RStore) (k : PyStr) (v : PyStr) (ttl : Option Int) : RStore :=
  (k, ⟨v, ttl⟩) :: sdel s k

/-- `EXPIRE k t`. -/
def sexpire (s : RStore) (k : PyStr) (t : Int) : RStore :=
  s.map (fun p => if p.1 = k then (p.1, ⟨p.2.value, some t⟩) else p)

/-- `TTL k` as redis-py of this library's era reports it: `none` when the key
is missing or has no expiry, the remaining seconds otherwise. -/
def sttl (s : RStore) (k : PyStr) : Option Int :=
  (sget s k).bind (fun v => v.ttl)

/-- `SCAN` with match pattern `full_key + ".*"`: all stored keys that start
with `full_key + "."`, in store order. -/
def scanKeys (s : RStore) (full_key : PyStr) : List PyStr :=
  (s.map (fun p => p.1)).filter (fun k => leadB (full_key ++ ['.']) k)

/-! ## The hierarchical lock (`lock.py`) -/

/-- The configuration of a `Lock`: the dotted key and the two timeouts,
already floored at one second by `__init__` (`max(1, ·)`). -/
structure Lock : Type where
  key : PyStr
  expire_seconds : Int
  acquire_seconds : Int
deriving DecidableEq, Repr

/-- `Lock.__init__`: validate the key and floor both timeouts at one
second. -/
def mkLock (key : PyStr) (expire_timeout acquire_timeout : Int) : Except PyErr Lock :=
  match validate_key key with
  | .error e => .error e
  | .ok _ => .ok ⟨key, max 1 expire_timeout, max 1 acquire_timeout⟩

/-- `Lock._find_root_lock` target selection: scan the ancestor chain deepest
first and take the first occupied key; fall back to the lock's own key. -/
def find_root_lock_target (s : RStore) (key : PyStr) : PyStr :=
  match (build_key_hierarchy key).find? (fun k => (sget s k).isSome) with
  | some k => k
  | none => key

/-- The wait loop of `Lock._acquire`, written over the stream of values the
successive `pipe.get(key)` calls return (`reads i` is the `i`-th read).  The
loop keeps the *last parsed* `lock_count` across iterations; on a `none` read
it breaks with whatever count it last saw — this is the stale-count slip that
claim C4 is about.  Returns the final `lock_count`, or the error raised. -/
def acquireScan (own : Owner) (reads : Nat → Option PyStr) :
    Nat → Nat → Int → Except PyErr Int
  | 0, _, _ => .error .lockTimeout
  | retries + 1, i, lock_count =>
    match reads i with
    | none => .ok lock_count
    | some tok =>
      match parse_lock_token tok with
      | .error e => .error e
      | .ok (pid, tid, count) =>
        if pid = own.pid ∧ tid = own.tid then .ok count
        else acquireScan own reads retries (i + 1) count

/-- The token that `Lock._acquire` writes after its wait loop finishes:
`build_lock_token(lock_count + 1)` (always written together with
`EXPIRE expire_seconds`). -/
def acquireBody (own : Owner) (retries : Nat) (reads : Nat → Option PyStr) :
    Except PyErr PyStr :=
  (acquireScan own reads retries 0 0).map (fun c => build_lock_token own (c + 1))

/-- Big-step `Lock.acquire` for a quiescent store: no concurrent writer runs
during the wait loop, so every read of the target key returns the same value.
The target is chosen by `_find_root_lock`, the body writes
`token(lock_count+1)` and reapplies the expire timeout. -/
def lockAcquire (lk : Lock) (own : Owner) (s : RStore) : Except PyErr RStore :=
  let target := find_root_lock_target s lk.key
  let read := (sget s target).map (fun v => v.value)
  match acquireScan own (fun _ => read) (lk.acquire_seconds * 20).toNat 0 0 with
  | .error e => .error e
  | .ok c =>
    .ok (sexpire (sset s target (build_lock_token own (c + 1)) none)
      target lk.expire_seconds)

/-- Big-step `Lock.release`: resolve the target, return silently when it
holds no token, raise `InternalError` on a non-positive count, delete the key
at count 1, otherwise write back the *releaser's own* token with the
decremented count and reapply the expire timeout. -/
def lockRelease (lk : Lock) (own : Owner) (s : RStore) : Except PyErr RStore :=
  let target := find_root_lock_target s lk.key
  match (sget s target).map (fun v => v.value) with
  | none => .ok s
  | some tok =>
    match parse_lock_token tok with
    | .error e => .error e
    | .ok (_, _, lock_count) =>
      if lock_count ≤ 0 then .error .internalError
      else if lock_count = 1 then .ok (sdel s target)
      else
        .ok (sexpire (sset s target (build_lock_token own (lock_count - 1)) none)
          target lk.expire_seconds)

/-- A completed lock operation: an acquire or a release, by some owner, on
some dotted key. -/
inductive LockOp : Type where
  | acq : Owner → PyStr → LockOp
  | rel : Owner → PyStr → LockOp
deriving DecidableEq, Repr

/-- The key a lock operation addresses. -/
def LockOp.opKey : LockOp → PyStr
  | .acq _ k => k
  | .rel _ k => k

/-- Apply one completed lock operation (the lock configured with the two
given timeouts). -/
def applyLockOp (expire acquire : Int) : LockOp → RStore → Except PyErr RStore
  | .acq o k, s => lockAcquire ⟨k, expire, acquire⟩ o s
  | .rel o k, s => lockRelease ⟨k, expire, acquire⟩ o s

/-- Run a sequence of completed lock operations (all locks configured with
the same two timeouts), stopping at the first raised exception. -/
def applyLockOps (expire acquire : Int) : List LockOp → RStore → Except PyErr RStore
  | [], s => .ok s
  | op :: rest, s =>
    match applyLockOp expire acquire op s with
    | .ok s2 => applyLockOps expire acquire rest s2
    | .error e => .error e

/-- Iterate one store-transforming operation `n` times, stopping at the first
raised exception. -/
def iterOp (f : RStore → Except PyErr RStore) : Nat → RStore → Except PyErr RStore
  | 0, s => .ok s
  | n + 1, s =>
    match f s with
    | .ok s2 => iterOp f n s2
    | .error e => .error e

/-- The keys of the ancestor chain of `key` that are currently occupied. -/
def occupiedChainKeys (s : RStore) (key : PyStr) : List PyStr :=
  (build_key_hierarchy key).filter (fun k => (sget s k).isSome)

/-! ## The value proxy (`proxy.py`) -/

/-- `VAL_TREE_PREFIX` (`"v:"`). -/
def valTreePfx : PyStr := ['v', ':']

/-- `LOCK_TREE_PREFIX` (`"l:"`). -/
def lockTreePfx : PyStr := ['l', ':']

/-- `_Proxy._get_full_key`: `'.'.join((VAL_TREE_PREFIX,) + path)` — the bare
prefix for the root path — plus `'.' + key` when a child key is given. -/
def getFullKey (path : List PyStr) (key : Option PyStr) : PyStr :=
  let own_key := joinChar '.' (valTreePfx :: path)
  match key with
  | some k => own_key ++ '.' :: k
  | none => own_key

/-- `util.clear_parents`: delete every parent key of `key`
(`build_key_hierarchy(key)[1:]`). -/
def clear_parents (s : RStore) (key : PyStr) : RStore :=
  ((build_key_hierarchy key).tail).foldl (fun st k => sdel st k) s

/-- `_get_sub_keys`: every stored key matching `full_key + ".*"` (in scan
order), then `full_key` itself.  Never empty. -/
def get_sub_keys (s : RStore) (full_key : PyStr) : List PyStr :=
  scanKeys s full_key ++ [full_key]

/-- `_Proxy.clear`: delete this level of the value tree including all
children. -/
def proxyClear (s : RStore) (full_key : PyStr) : RStore :=
  (get_sub_keys s full_key).foldl (fun st k => sdel st k) s

/-- Model of `json.dumps` on the scalar payloads this embedding stores. -/
def json_dumps_scalar (v : Int) : PyStr := intToChars v

/-- Model of `json.loads` on the strings this embedding stores (decimal
integer payloads; other inputs are never produced by `json_dumps_scalar`). -/
def json_loads (s : PyStr) : PyObj := .scalar ((pyIntChars s).getD 0)

/-- `_Proxy.set`: validate the sub-key, delete all parent keys of the full
key, then either (mapping) clear the subtree at the child path and write one
leaf per scalar of the flattened mapping, or (scalar) write the value at the
full key — each write carrying the optional expiry. -/
def proxySet (s : RStore) (path : List PyStr) (key : PyStr) (value : PyObj)
    (expire : Option Int) : Except PyErr RStore :=
  match validate_key key with
  | .error e => .error e
  | .ok _ =>
    let full_key := getFullKey path (some key)
    let s1 := clear_parents s full_key
    match value with
    | .dict dd =>
      let child_key := getFullKey (path ++ splitChar '.' key) none
      let s2 := proxyClear s1 child_key
      let items := extract_keys dd full_key
      .ok (items.foldl (fun st p => sset st p.1 (json_dumps_scalar p.2) expire) s2)
    | .scalar v => .ok (sset s1 full_key (json_dumps_scalar v) expire)

/-- `_Proxy.exists`: true iff the exact key exists. -/
def proxyExists (s : RStore) (full_key : PyStr) : Bool :=
  (sget s full_key).isSome

/-- `_Proxy.val`: the scalar stored at the exact key if present; otherwise
the nested dict reassembled from the subtree scan; otherwise `None` when no
default was given and the key does not exist, else the default. -/
def proxyVal (s : RStore) (full_key : PyStr) (default : Option PyObj) : Option PyObj :=
  match (sget s full_key).map (fun v => v.value) with
  | some v => some (json_loads v)
  | none =>
    let nested := (scanKeys s full_key).foldl
      (fun d k =>
        match (sget s k).map (fun v => v.value) with
        | some v => feed_to_nested d (k.drop (full_key.length + 1)) (json_loads v)
        | none => d) .nil
    if entriesLength nested = 0 then
      if default.isNone && !proxyExists s full_key then none
      else default
    else some (.dict nested)

/-- `_Proxy.time_to_live`: the TTL of the first key yielded by
`_get_sub_keys` (the `StopIteration` fallback to `None` is unreachable, since
`_get_sub_keys` always yields the own key last). -/
def time_to_live (s : RStore) (full_key : PyStr) : Option Int :=
  match get_sub_keys s full_key with
  | [] => none
  | k :: _ => sttl s k

/-! ## Lemmas: decimal conversion and the token codec round trip -/

theorem digitVal_digitChar {d : Nat} (h : d < 10) : digitVal (digitChar d) = some d := by
  interval_cases d <;> rfl

theorem natToCharsAux_fuel : ∀ (fuel n : Nat), n < fuel →
    natToCharsAux fuel n = natToCharsAux (n + 1) n := by
  intro fuel
  induction fuel using Nat.strong_induction_on with
  | _ fuel ih =>
    intro n hn
    match fuel, hn with
    | f + 1, hn =>
      rw [natToCharsAux,
        show natToCharsAux (n + 1) n =
          if n < 10 then [digitChar n]
          else natToCharsAux n (n / 10) ++ [digitChar (n % 10)] from rfl]
      by_cases h : n < 10
      · rw [if_pos h, if_pos h]
      · rw [if_neg h, if_neg h]
        have hd : n / 10 < n := Nat.div_lt_self (by omega) (by omega)
        rw [ih f (by omega) (n / 10) (by omega), ih n (by omega) (n / 10) hd]

theorem natToChars_unfold (n : Nat) :
    natToChars n =
      if n < 10 then [digitChar n]
      else natToChars (n / 10) ++ [digitChar (n % 10)] := by
  rw [natToChars, natToCharsAux]
  by_cases h : n < 10
  · rw [if_pos h, if_pos h]
  · rw [if_neg h, if_neg h,
      natToCharsAux_fuel n (n / 10) (Nat.div_lt_self (by omega) (by omega))]
    rw [natToChars]

theorem natToChars_digits {n : Nat} : ∀ c ∈ natToChars n, (digitVal c).isSome := by
  induction n using Nat.strong_induction_on with
  | _ n ih =>
    intro c hc
    rw [natToChars_unfold] at hc
    by_cases h : n < 10
    · rw [if_pos h] at hc
      rw [List.mem_singleton] at hc
      subst hc
      simp [digitVal_digitChar h]
    · rw [if_neg h] at hc
      rcases List.mem_append.mp hc with hc | hc
      · exact ih (n / 10) (Nat.div_lt_self (by omega) (by omega)) c hc
      · rw [List.mem_singleton] at hc
        subst hc
        simp [digitVal_digitChar (Nat.mod_lt _ (by omega))]

theorem natToChars_ne_nil {n : Nat} : natToChars n ≠ [] := by
  rw [natToChars_unfold]
  by_cases h : n < 10 <;> simp [h]

theorem readNatAux_append {l1 l2 : PyStr} {acc m : Nat}
    (h : readNatAux l1 acc = some m) :
    readNatAux (l1 ++ l2) acc = readNatAux l2 m := by
  induction l1 generalizing acc with
  | nil => simp [readNatAux] at h; simp [h]
  | cons c rest ih =>
    simp only [readNatAux] at h ⊢
    match hd : digitVal c with
    | some d => rw [hd] at h; simp only [List.cons_append, readNatAux, hd]; exact ih h
    | none => rw [hd] at h; exact absurd h (by simp)

theorem readNatAux_natToChars {n : Nat} :
    ∀ acc, readNatAux (natToChars n) acc = some (acc * 10 ^ (natToChars n).length + n) := by
  induction n using Nat.strong_induction_on with
  | _ n ih =>
    intro acc
    rw [natToChars_unfold]
    by_cases h : n < 10
    · rw [if_pos h]
      simp [readNatAux, digitVal_digitChar h]
    · have hlt : n / 10 < n := Nat.div_lt_self (by omega) (by omega)
      rw [if_neg h]
      rw [readNatAux_append (ih (n / 10) hlt acc)]
      simp only [readNatAux, digitVal_digitChar (Nat.mod_lt _ (by omega) : n % 10 < 10)]
      congr 1
      have hmod := Nat.div_add_mod n 10
      simp [List.length_append]
      ring_nf
      omega

theorem readNat_natToChars {n : Nat} : readNat (natToChars n) = some n := by
  have hne := natToChars_ne_nil (n := n)
  match hl : natToChars n with
  | [] => exact absurd hl hne
  | c :: rest =>
    have := readNatAux_natToChars (n := n) 0
    rw [hl] at this
    simp only [readNat, this]
    simp

theorem pyIntChars_intToChars {i : Int} : pyIntChars (intToChars i) = some i := by
  match i with
  | .ofNat n =>
    have hne := natToChars_ne_nil (n := n)
    have hdig := natToChars_digits (n := n)
    match hl : natToChars n with
    | [] => exact absurd hl hne
    | c :: rest =>
      have hc : (digitVal c).isSome := hdig c (by rw [hl]; exact List.mem_cons_self _ _)
      have hcm : c ≠ '-' ∧ c ≠ '+' := by
        constructor <;> rintro rfl <;> simp [digitVal] at hc
      have hread : readNat (natToChars n) = some n := readNat_natToChars
      rw [hl] at hread
      show pyIntChars (intToChars (Int.ofNat n)) = some (Int.ofNat n)
      rw [intToChars, hl]
      match c, hcm with
      | c, ⟨h1, h2⟩ =>
        rw [pyIntChars.eq_def]
        split
        · rename_i heq; rw [List.cons_eq_cons] at heq; exact absurd heq.1 h1
        · rename_i heq; rw [List.cons_eq_cons] at heq; exact absurd heq.1 h2
        · rw [hread]; rfl
  | .negSucc m =>
    show pyIntChars ('-' :: natToChars (m + 1)) = some (Int.negSucc m)
    rw [pyIntChars, readNat_natToChars]
    simp [Int.negSucc_eq]

theorem colon_not_mem_natToChars {n : Nat} : ':' ∉ natToChars n := by
  intro hmem
  have := natToChars_digits (n := n) ':' hmem
  simp [digitVal] at this

theorem colon_not_mem_intToChars {i : Int} : ':' ∉ intToChars i := by
  match i with
  | .ofNat n => exact colon_not_mem_natToChars
  | .negSucc m =>
    intro hmem
    rcases List.mem_cons.mp hmem with h | h
    · exact absurd h (by decide)
    · exact colon_not_mem_natToChars h

theorem splitChar_of_not_mem {sep : Char} {l : PyStr} (h : sep ∉ l) :
    splitChar sep l = [l] := by
  induction l with
  | nil => rfl
  | cons c rest ih =>
    have hcs : c ≠ sep := fun he => h (he ▸ List.mem_cons_self _ _)
    have hrs : sep ∉ rest := fun hm => h (List.mem_cons_of_mem _ hm)
    rw [splitChar, ih hrs]
    simp [hcs]

theorem splitChar_append_sep {sep : Char} {l1 l2 : PyStr} (h : sep ∉ l1) :
    splitChar sep (l1 ++ sep :: l2) = l1 :: splitChar sep l2 := by
  induction l1 with
  | nil => simp [splitChar]
  | cons c rest ih =>
    have hcs : c ≠ sep := fun he => h (he ▸ List.mem_cons_self _ _)
    have hrs : sep ∉ rest := fun hm => h (List.mem_cons_of_mem _ hm)
    rw [List.cons_append, splitChar, ih hrs]
    simp [hcs]

theorem splitChar_ne_nil {sep : Char} {l : PyStr} : splitChar sep l ≠ [] := by
  induction l with
  | nil => simp [splitChar]
  | cons c rest ih =>
    rw [splitChar]
    by_cases hc : c = sep
    · simp [hc]
    · simp only [if_neg hc]
      match h : splitChar sep rest with
      | [] => exact absurd h ih
      | x :: xs => simp

theorem parse_build_lock_token {own : Owner} {count : Int} :
    parse_lock_token (build_lock_token own count) = .ok (own.pid, own.tid, count) := by
  have key_eq : build_lock_token own count =
      intToChars own.pid ++ ':' :: (intToChars own.tid ++ ':' :: intToChars count) := by
    simp [build_lock_token]
  have hsplit : splitChar ':' (build_lock_token own count) =
      [intToChars own.pid, intToChars own.tid, intToChars count] := by
    rw [key_eq, splitChar_append_sep colon_not_mem_intToChars,
      splitChar_append_sep colon_not_mem_intToChars,
      splitChar_of_not_mem colon_not_mem_intToChars]
  rw [parse_lock_token, pySplit2, hsplit]
  simp only [joinChar]
  rw [if_neg (by simp)]
  simp [pyIntChars_intToChars]

/-! ## Lemmas: key hierarchy -/

theorem cutAtLastDot_length {l r : PyStr} (h : cutAtLastDot l = some r) :
    r.length < l.length := by
  induction l generalizing r with
  | nil => simp [cutAtLastDot] at h
  | cons c rest ih =>
    rw [cutAtLastDot] at h
    match hc : cutAtLastDot rest with
    | some r2 =>
      rw [hc] at h
      cases h
      have := ih hc
      simp
      omega
    | none =>
      rw [hc] at h
      by_cases hdot : c = '.'
      · rw [if_pos hdot] at h
        cases h
        simp
      · rw [if_neg hdot] at h
        cases h

theorem mem_hierarchyRestAux_length {fuel : Nat} {key a : PyStr}
    (h : a ∈ hierarchyRestAux fuel key) : a.length < key.length := by
  induction fuel generalizing key with
  | zero => simp [hierarchyRestAux] at h
  | succ fuel ih =>
    rw [hierarchyRestAux] at h
    match hc : cutAtLastDot key with
    | some k2 =>
      rw [hc] at h
      rcases List.mem_cons.mp h with rfl | h2
      · exact cutAtLastDot_length hc
      · exact lt_trans (ih h2) (cutAtLastDot_length hc)
    | none => rw [hc] at h; simp at h

theorem hierarchyRestAux_length_sorted {fuel : Nat} {key : PyStr} :
    (hierarchyRestAux fuel key).Pairwise (fun a b => b.length < a.length) := by
  induction fuel generalizing key with
  | zero => simp [hierarchyRestAux]
  | succ fuel ih =>
    rw [hierarchyRestAux]
    match hc : cutAtLastDot key with
    | some k2 =>
      refine List.pairwise_cons.mpr ⟨fun b hb => mem_hierarchyRestAux_length hb, ih⟩
    | none => simp

theorem build_key_hierarchy_nodup {key : PyStr} : (build_key_hierarchy key).Nodup := by
  have hp : (build_key_hierarchy key).Pairwise (fun a b => b.length < a.length) := by
    rw [build_key_hierarchy]
    exact List.pairwise_cons.mpr ⟨fun b hb => mem_hierarchyRestAux_length hb,
      hierarchyRestAux_length_sorted⟩
  exact hp.imp (fun h => by intro he; subst he; omega)

/-- The length fuel of `build_key_hierarchy` never runs out: any fuel of at
least the key's length produces the same list, so the model agrees with the
unbounded `while True` loop of the source. -/
theorem hierarchyRestAux_fuel : ∀ (fuel : Nat) (key : PyStr), key.length ≤ fuel →
    hierarchyRestAux fuel key = hierarchyRestAux key.length key := by
  intro fuel
  induction fuel using Nat.strong_induction_on with
  | _ fuel ih =>
    intro key h
    match fuel with
    | 0 =>
      have h0 : key.length = 0 := Nat.le_zero.mp h
      rw [h0]
    | fuel + 1 =>
      match hc : cutAtLastDot key with
      | some k2 =>
        have hk2 := cutAtLastDot_length hc
        match hkl : key.length with
        | 0 => omega
        | kl + 1 =>
          rw [hkl] at h
          simp only [hierarchyRestAux, hc]
          rw [ih fuel (by omega) k2 (by omega), ih kl (by omega) k2 (by omega)]
      | none =>
        match hkl : key.length with
        | 0 =>
          have hk : key = [] := List.length_eq_zero.mp hkl
          subst hk
          simp [hierarchyRestAux, hc]
        | kl + 1 =>
          simp only [hierarchyRestAux, hc]

/-! ## Lemmas: the backend store -/

theorem sget_cons {k0 : PyStr} {v : RVal} {rest : RStore} {k' : PyStr} :
    sget ((k0, v) :: rest) k' = if k0 = k' then some v else sget rest k' := rfl

theorem sget_sdel {s : RStore} {k k' : PyStr} :
    sget (sdel s k) k' = if k' = k then none else sget s k' := by
  induction s with
  | nil => by_cases h : k' = k <;> simp [sdel, sget, h]
  | cons p rest ih =>
    obtain ⟨k0, v⟩ := p
    rw [sdel]
    by_cases h0 : k0 = k
    · subst h0
      rw [if_pos rfl, ih]
      by_cases h' : k' = k0
      · simp [h']
      · rw [if_neg h', if_neg h', sget_cons, if_neg (fun he => h' he.symm)]
    · rw [if_neg h0, sget_cons]
      by_cases h' : k0 = k'
      · have hne : ¬ k' = k := fun he => h0 (h'.trans he)
        rw [if_pos h', if_neg hne, sget_cons, if_pos h']
      · rw [if_neg h', ih]
        by_cases h'' : k' = k
        · simp [h'']
        · rw [if_neg h'', if_neg h'', sget_cons, if_neg h']

theorem sget_sset {s : RStore} {k k' : PyStr} {v : PyStr} {ttl : Option Int} :
    sget (sset s k v ttl) k' = if k' = k then some ⟨v, ttl⟩ else sget s k' := by
  rw [sset, sget_cons, sget_sdel]
  by_cases h : k = k'
  · rw [if_pos h, if_pos h.symm]
  · rw [if_neg h, if_neg (fun he => h he.symm), if_neg (fun he => h he.symm)]

theorem sget_sexpire {s : RStore} {k k' : PyStr} {t : Int} :
    sget (sexpire s k t) k' =
      if k' = k then (sget s k).map (fun v => ⟨v.value, some t⟩) else sget s k' := by
  induction s with
  | nil => by_cases h : k' = k <;> simp [sexpire, sget, h]
  | cons p rest ih =>
    obtain ⟨k0, v⟩ := p
    rw [sexpire, List.map_cons]
    rw [sexpire] at ih
    by_cases h0 : k0 = k
    · subst h0
      rw [if_pos rfl]
      by_cases h' : k' = k0
      · rw [sget_cons, if_pos h'.symm, if_pos h', sget_cons, if_pos rfl]
        rfl
      · rw [sget_cons, if_neg (fun he => h' he.symm), ih, if_neg h', if_neg h',
          sget_cons, if_neg (fun he => h' he.symm)]
    · rw [if_neg h0, sget_cons]
      by_cases h' : k0 = k'
      · have hne : ¬ k' = k := fun he => h0 (h'.trans he)
        rw [if_pos h', if_neg hne, sget_cons, if_pos h']
      · rw [if_neg h', ih]
        by_cases h'' : k' = k
        · rw [if_pos h'', if_pos h'', sget_cons, if_neg h0]
        · rw [if_neg h'', if_neg h'', sget_cons, if_neg h']

theorem sget_foldl_sdel {L : List PyStr} {s : RStore} {a : PyStr} :
    sget (L.foldl (fun st k => sdel st k) s) a = if a ∈ L then none else sget s a := by
  induction L generalizing s with
  | nil => simp
  | cons k rest ih =>
    rw [List.foldl_cons, ih]
    by_cases hm : a ∈ rest
    · simp [hm]
    · rw [if_neg hm, sget_sdel]
      by_cases he : a = k
      · simp [he]
      · rw [if_neg he, if_neg (by simp [he, hm])]

theorem sget_isSome_mem_keys {s : RStore} {k : PyStr} (h : (sget s k).isSome) :
    k ∈ s.map (fun p => p.1) := by
  induction s with
  | nil => simp [sget] at h
  | cons p rest ih =>
    obtain ⟨k0, v⟩ := p
    rw [sget_cons] at h
    rw [List.map_cons]
    by_cases h0 : k0 = k
    · rw [h0]
      exact List.mem_cons_self _ _
    · rw [if_neg h0] at h
      exact List.mem_cons_of_mem _ (ih h)

theorem sdel_keys_sub {s : RStore} {k a : PyStr}
    (h : a ∈ (sdel s k).map (fun p => p.1)) : a ∈ s.map (fun p => p.1) := by
  induction s with
  | nil => rw [sdel] at h; exact h
  | cons p rest ih =>
    obtain ⟨k0, v⟩ := p
    rw [sdel] at h
    rw [List.map_cons]
    by_cases h0 : k0 = k
    · rw [if_pos h0] at h
      exact List.mem_cons_of_mem _ (ih h)
    · rw [if_neg h0, List.map_cons] at h
      rcases List.mem_cons.mp h with he | h2
      · rw [he]
        exact List.mem_cons_self _ _
      · exact List.mem_cons_of_mem _ (ih h2)

theorem foldl_sdel_keys_sub {L : List PyStr} {s : RStore} {k : PyStr}
    (h : k ∈ (L.foldl (fun st k => sdel st k) s).map (fun p => p.1)) :
    k ∈ s.map (fun p => p.1) := by
  induction L generalizing s with
  | nil => exact h
  | cons a rest ih =>
    rw [List.foldl_cons] at h
    exact sdel_keys_sub (ih h)

/-! ## Lemmas: lock targeting and the acquire/release bodies -/

theorem sget_singleton {k0 k : PyStr} {v : RVal} :
    sget [(k0, v)] k = if k0 = k then some v else none := rfl

theorem find?_unique_mem {α : Type} {p : α → Bool} {l : List α} {a : α}
    (hm : a ∈ l) (hp : p a = true) (hu : ∀ b, p b = true → b = a) :
    l.find? p = some a := by
  induction l with
  | nil => cases hm
  | cons x xs ih =>
    by_cases hx : p x = true
    · rw [List.find?_cons_of_pos _ hx, hu x hx]
    · rw [List.find?_cons_of_neg _ hx]
      rcases List.mem_cons.mp hm with rfl | hm2
      · exact absurd hp hx
      · exact ih hm2

theorem find_root_lock_target_vacant {s : RStore} {key : PyStr}
    (h : ∀ k, sget s k = none) : find_root_lock_target s key = key := by
  rw [find_root_lock_target, List.find?_eq_none.mpr (fun k _ => by simp [h k])]

theorem find_root_lock_target_head {s : RStore} {key : PyStr}
    (h : (sget s key).isSome) : find_root_lock_target s key = key := by
  rw [find_root_lock_target, build_key_hierarchy, List.find?_cons_of_pos _ (by simpa using h)]

theorem find_root_lock_target_singleton {k0 key : PyStr} {v : RVal}
    (hmem : k0 ∈ build_key_hierarchy key) :
    find_root_lock_target [(k0, v)] key = k0 := by
  rw [find_root_lock_target,
    find?_unique_mem hmem (by simp [sget_singleton])
      (fun b hb => by
        rw [sget_singleton] at hb
        by_cases he : k0 = b
        · exact he.symm
        · rw [if_neg he] at hb; simp at hb)]

theorem acquireScan_read_none {own : Owner} {reads : Nat → Option PyStr}
    {r i : Nat} {c : Int} (hr : 1 ≤ r) (h : reads i = none) :
    acquireScan own reads r i c = .ok c := by
  match r, hr with
  | rr + 1, _ => rw [acquireScan, h]

theorem acquireScan_read_own {own : Owner} {reads : Nat → Option PyStr}
    {r i : Nat} {c c' : Int} {tok : PyStr} (hr : 1 ≤ r) (h : reads i = some tok)
    (hp : parse_lock_token tok = .ok (own.pid, own.tid, c')) :
    acquireScan own reads r i c = .ok c' := by
  match r, hr with
  | rr + 1, _ =>
    simp only [acquireScan, h, hp]
    simp

theorem acquireScan_foreign {own o : Owner} {tok : PyStr} {c' : Int}
    (hp : parse_lock_token tok = .ok (o.pid, o.tid, c')) (hne : o ≠ own) :
    ∀ (r i : Nat) (c : Int),
      acquireScan own (fun _ => some tok) r i c = .error .lockTimeout := by
  intro r
  induction r with
  | zero => intro i c; rfl
  | succ rr ih =>
    intro i c
    simp only [acquireScan, hp]
    rw [if_neg (fun hh : o.pid = own.pid ∧ o.tid = own.tid =>
      hne (by cases own; cases o; cases hh.1; cases hh.2; rfl))]
    exact ih (i + 1) c'

/-- A store holding exactly one lock entry, on a chain key, with a positive
count: the shape every reachable lock-tree state has when all operations act
on one fixed path (the amended claim C2 invariant). -/
def singleOnChain (key : PyStr) (s : RStore) : Prop :=
  s = [] ∨ ∃ k0 o c t, s = [(k0, ⟨build_lock_token o c, t⟩)] ∧
    k0 ∈ build_key_hierarchy key ∧ 1 ≤ c

theorem lockAcquire_vacant {lk : Lock} {own : Owner}
    (ha : 1 ≤ lk.acquire_seconds) :
    lockAcquire lk own [] = .ok [(lk.key, ⟨build_lock_token own 1, some lk.expire_seconds⟩)] := by
  rw [lockAcquire]
  have htgt : find_root_lock_target [] lk.key = lk.key :=
    find_root_lock_target_vacant (fun k => rfl)
  rw [htgt]
  have hr : 1 ≤ (lk.acquire_seconds * 20).toNat := by omega
  rw [show (sget ([] : RStore) lk.key).map (fun v => v.value) = none from rfl]
  rw [acquireScan_read_none hr rfl]
  simp [sset, sdel, sexpire]

theorem lockAcquire_singleton_own {lk : Lock} {own : Owner} {k0 : PyStr} {j : Int}
    {t : Option Int} (hmem : k0 ∈ build_key_hierarchy lk.key)
    (ha : 1 ≤ lk.acquire_seconds) :
    lockAcquire lk own [(k0, ⟨build_lock_token own j, t⟩)] =
      .ok [(k0, ⟨build_lock_token own (j + 1), some lk.expire_seconds⟩)] := by
  rw [lockAcquire]
  rw [find_root_lock_target_singleton hmem]
  have hr : 1 ≤ (lk.acquire_seconds * 20).toNat := by omega
  rw [show (sget [(k0, (⟨build_lock_token own j, t⟩ : RVal))] k0).map (fun v => v.value) =
    some (build_lock_token own j) by simp [sget_singleton]]
  rw [acquireScan_read_own hr rfl parse_build_lock_token]
  simp [sset, sdel, sexpire]

theorem lockAcquire_singleton_foreign {lk : Lock} {own o : Owner} {k0 : PyStr}
    {j : Int} {t : Option Int} (hmem : k0 ∈ build_key_hierarchy lk.key)
    (hne : o ≠ own) :
    lockAcquire lk own [(k0, ⟨build_lock_token o j, t⟩)] = .error .lockTimeout := by
  rw [lockAcquire]
  rw [find_root_lock_target_singleton hmem]
  rw [show (sget [(k0, (⟨build_lock_token o j, t⟩ : RVal))] k0).map (fun v => v.value) =
    some (build_lock_token o j) by simp [sget_singleton]]
  rw [acquireScan_foreign parse_build_lock_token hne]

theorem lockRelease_vacant {lk : Lock} {own : Owner} :
    lockRelease lk own [] = .ok [] := by
  rw [lockRelease]
  have htgt : find_root_lock_target [] lk.key = lk.key :=
    find_root_lock_target_vacant (fun k => rfl)
  rw [htgt]
  rfl

theorem lockRelease_singleton {lk : Lock} {own o : Owner} {k0 : PyStr} {c : Int}
    {t : Option Int} (hmem : k0 ∈ build_key_hierarchy lk.key) :
    lockRelease lk own [(k0, ⟨build_lock_token o c, t⟩)] =
      if c ≤ 0 then .error .internalError
      else if c = 1 then .ok []
      else .ok [(k0, ⟨build_lock_token own (c - 1), some lk.expire_seconds⟩)] := by
  rw [lockRelease]
  rw [find_root_lock_target_singleton hmem]
  rw [show (sget [(k0, (⟨build_lock_token o c, t⟩ : RVal))] k0).map (fun v => v.value) =
    some (build_lock_token o c) by simp [sget_singleton]]
  simp only [parse_build_lock_token]
  by_cases h0 : c ≤ 0
  · rw [if_pos h0, if_pos h0]
  · rw [if_neg h0, if_neg h0]
    by_cases h1 : c = 1
    · rw [if_pos h1, if_pos h1]
      simp [sdel]
    · rw [if_neg h1, if_neg h1]
      simp [sset, sdel, sexpire]

theorem lockAcquire_no_budget {lk : Lock} {own : Owner} {s : RStore}
    (h : lk.acquire_seconds ≤ 0) :
    lockAcquire lk own s = .error .lockTimeout := by
  rw [lockAcquire]
  have h0 : (lk.acquire_seconds * 20).toNat = 0 := by omega
  rw [h0]
  rfl

theorem iterOp_acquire_own {lk : Lock} {own : Owner} {k0 : PyStr}
    (hmem : k0 ∈ build_key_hierarchy lk.key) (ha : 1 ≤ lk.acquire_seconds) :
    ∀ (j : Nat) (c : Int),
      iterOp (lockAcquire lk own) j [(k0, ⟨build_lock_token own c, some lk.expire_seconds⟩)] =
        .ok [(k0, ⟨build_lock_token own (c + j), some lk.expire_seconds⟩)] := by
  intro j
  induction j with
  | zero => intro c; simp [iterOp]
  | succ jj ih =>
    intro c
    rw [iterOp, lockAcquire_singleton_own hmem ha]
    show iterOp (lockAcquire lk own) jj _ = _
    rw [ih (c + 1)]
    congr 2
    push_cast
    ring

theorem iterOp_release_own {lk : Lock} {own : Owner} {k0 : PyStr}
    (hmem : k0 ∈ build_key_hierarchy lk.key) :
    ∀ (j : Nat) (c : Int), (j : Int) < c →
      iterOp (lockRelease lk own) j [(k0, ⟨build_lock_token own c, some lk.expire_seconds⟩)] =
        .ok [(k0, ⟨build_lock_token own (c - j), some lk.expire_seconds⟩)] := by
  intro j
  induction j with
  | zero => intro c _; simp [iterOp]
  | succ jj ih =>
    intro c hc
    rw [iterOp, lockRelease_singleton hmem]
    rw [if_neg (by push_cast at hc; omega), if_neg (by push_cast at hc; omega)]
    show iterOp (lockRelease lk own) jj _ = _
    rw [ih (c - 1) (by push_cast at hc ⊢; omega)]
    congr 2
    push_cast
    ring

theorem mkLock_ok {key : PyStr} {E A : Int} {lk : Lock}
    (h : mkLock key E A = .ok lk) :
    lk = ⟨key, max 1 E, max 1 A⟩ := by
  rw [mkLock] at h
  match hv : validate_key key with
  | .error e => rw [hv] at h; cases h
  | .ok _ => rw [hv] at h; cases h; rfl

/-- C1: for every expire timeout `E ≥ 1` and every depth `d ≥ 2`, acquiring a
lock `d` times re-entrantly (same owner) and then releasing it `d - 1` times
leaves the lock key present and carrying TTL exactly `E`: every non-terminal
release re-applies the configured expire timeout when it writes the
decremented token. -/
theorem claim1_reentrant_release_keeps_ttl (key : PyStr) (E A : Int) (own : Owner)
    (d : Nat) (lk : Lock) (hE : 1 ≤ E) (hd : 2 ≤ d) (hmk : mkLock key E A = .ok lk) :
    ∃ s1 s2,
      iterOp (lockAcquire lk own) d [] = .ok s1 ∧
      iterOp (lockRelease lk own) (d - 1) s1 = .ok s2 ∧
      (sget s2 lk.key).isSome ∧ sttl s2 lk.key = some E := by
  have hlk := mkLock_ok hmk
  subst hlk
  have hEe : (max 1 E : Int) = E := by omega
  have ha : (1 : Int) ≤ max 1 A := by omega
  have hmem : key ∈ build_key_hierarchy key := List.mem_cons_self _ _
  refine ⟨[(key, ⟨build_lock_token own d, some (max 1 E)⟩)],
    [(key, ⟨build_lock_token own 1, some (max 1 E)⟩)], ?_, ?_, ?_, ?_⟩
  · match d, hd with
    | dd + 1, _ =>
      rw [iterOp, lockAcquire_vacant ha]
      show iterOp (lockAcquire _ _) dd _ = _
      rw [iterOp_acquire_own hmem ha dd 1]
      congr 3
      push_cast
      ring
  · have he : ((d : Int) - ((d - 1 : Nat) : Int)) = 1 := by omega
    rw [iterOp_release_own hmem (d - 1) d (by omega), he]
  · simp [sget_singleton]
  · simp [sttl, sget_singleton, hEe]

/-- C1 witness: the statement of `claim1_reentrant_release_keeps_ttl`
instantiated at `key = "a.b"`, `E = 15`, `A = 10`, depth 2. -/
theorem claim1_witness :
    (1 : Int) ≤ 15 ∧ 2 ≤ 2 ∧ mkLock ('a' :: '.' :: ['b']) 15 10 = .ok ⟨'a' :: '.' :: ['b'], 15, 10⟩ ∧
    ∃ s1 s2,
      iterOp (lockAcquire ⟨'a' :: '.' :: ['b'], 15, 10⟩ ⟨3, 4⟩) 2 [] = .ok s1 ∧
      iterOp (lockRelease ⟨'a' :: '.' :: ['b'], 15, 10⟩ ⟨3, 4⟩) (2 - 1) s1 = .ok s2 ∧
      (sget s2 (⟨'a' :: '.' :: ['b'], 15, 10⟩ : Lock).key).isSome ∧
      sttl s2 (⟨'a' :: '.' :: ['b'], 15, 10⟩ : Lock).key = some 15 :=
  ⟨by omega, by omega, rfl,
    claim1_reentrant_release_keeps_ttl ('a' :: '.' :: ['b']) 15 10 ⟨3, 4⟩ 2 _
      (by omega) (by omega) rfl⟩

theorem length_filter_le_one {α : Type} {p : α → Bool} {l : List α}
    (hnd : l.Nodup) (hu : ∀ a b, p a = true → p b = true → a = b) :
    (l.filter p).length ≤ 1 := by
  induction l with
  | nil => simp
  | cons x xs ih =>
    rw [List.filter_cons]
    by_cases hx : p x = true
    · rw [if_pos (by simp [hx])]
      have hrest : xs.filter p = [] := by
        rw [List.filter_eq_nil]
        intro a ha hpa
        exact (List.nodup_cons.mp hnd).1 ((hu a x hpa hx) ▸ ha)
      rw [hrest]
      simp
    · rw [if_neg (by simp [hx])]
      exact ih (List.nodup_cons.mp hnd).2

theorem applyLockOp_singleOnChain {E A : Int} {key : PyStr} {op : LockOp}
    {s s2 : RStore} (hop : op.opKey = key) (hs : singleOnChain key s)
    (h : applyLockOp E A op s = .ok s2) : singleOnChain key s2 := by
  match op, hop with
  | .acq o k, hop =>
    have hkeq : k = key := hop
    subst hkeq
    have h' : lockAcquire ⟨k, E, A⟩ o s = .ok s2 := h
    by_cases hA : 1 ≤ A
    · rcases hs with rfl | ⟨k0, o0, c, t, rfl, hmem, hc⟩
      · rw [lockAcquire_vacant hA] at h'
        cases h'
        exact Or.inr ⟨k, o, 1, _, rfl, List.mem_cons_self _ _, le_refl 1⟩
      · by_cases ho : o0 = o
        · subst ho
          rw [lockAcquire_singleton_own hmem hA] at h'
          cases h'
          exact Or.inr ⟨k0, o0, c + 1, _, rfl, hmem, by omega⟩
        · rw [lockAcquire_singleton_foreign hmem ho] at h'
          cases h'
    · rw [lockAcquire_no_budget (show A ≤ 0 by omega)] at h'
      cases h'
  | .rel o k, hop =>
    have hkeq : k = key := hop
    subst hkeq
    have h' : lockRelease ⟨k, E, A⟩ o s = .ok s2 := h
    rcases hs with rfl | ⟨k0, o0, c, t, rfl, hmem, hc⟩
    · rw [lockRelease_vacant] at h'
      cases h'
      exact Or.inl rfl
    · rw [lockRelease_singleton hmem] at h'
      rw [if_neg (by omega)] at h'
      by_cases h1 : c = 1
      · rw [if_pos h1] at h'
        cases h'
        exact Or.inl rfl
      · rw [if_neg h1] at h'
        cases h'
        exact Or.inr ⟨k0, o, c - 1, _, rfl, hmem, by omega⟩

theorem applyLockOps_singleOnChain {E A : Int} {key : PyStr} :
    ∀ (ops : List LockOp) (s s' : RStore), (∀ op ∈ ops, op.opKey = key) →
      singleOnChain key s → applyLockOps E A ops s = .ok s' → singleOnChain key s' := by
  intro ops
  induction ops with
  | nil =>
    intro s s' _ hs h
    rw [applyLockOps] at h
    cases h
    exact hs
  | cons op rest ih =>
    intro s s' hk hs h
    rw [applyLockOps] at h
    match hstep : applyLockOp E A op s with
    | .error e =>
      rw [hstep] at h
      simp at h
    | .ok s2 =>
      rw [hstep] at h
      exact ih s2 s' (fun p hp => hk p (List.mem_cons_of_mem _ hp))
        (applyLockOp_singleOnChain (hk op (List.mem_cons_self _ _)) hs hstep) h

/-- C2 (amended): starting from an empty lock tree, after any sequence of
completed acquire and release operations by any owners **all on one and the
same path**, the lock tree holds at most one key, so for any given path at
most one key of its ancestor chain is occupied and all other chain keys are
absent.  (The original claim, quantifying over operations on arbitrary
paths, is false: see the counterexample, where an acquire on the proper
ancestor `a` of an already-locked `a.b` occupies a second chain key.) -/
theorem claim2_single_occupied_chain_key (E A : Int) (key : PyStr)
    (ops : List LockOp) (s' : RStore) (hops : ∀ op ∈ ops, op.opKey = key)
    (h : applyLockOps E A ops [] = .ok s') :
    ∀ q : PyStr, (occupiedChainKeys s' q).length ≤ 1 := by
  intro q
  have hinv := applyLockOps_singleOnChain ops [] s' hops (Or.inl rfl) h
  rcases hinv with rfl | ⟨k0, o, c, t, rfl, hmem, hc⟩
  · rw [occupiedChainKeys]
    have : (build_key_hierarchy q).filter (fun k => (sget ([] : RStore) k).isSome) = [] := by
      rw [List.filter_eq_nil]
      intro a _
      simp [sget]
    rw [this]
    simp
  · rw [occupiedChainKeys]
    exact length_filter_le_one build_key_hierarchy_nodup (fun a b ha hb => by
      rw [sget_singleton] at ha hb
      by_cases hea : k0 = a
      · by_cases heb : k0 = b
        · rw [← hea, ← heb]
        · rw [if_neg heb] at hb; simp at hb
      · rw [if_neg hea] at ha; simp at ha)

/-- C2 counterexample: the claim as stated is false.  Acquiring `a.b` (owner
1) and then `a` (owner 2) — two completed acquires on two valid paths — leaves
*two* occupied keys in the ancestor chain of `a.b`. -/
theorem claim2_counterexample :
    applyLockOps 30 10
      [LockOp.acq ⟨1, 1⟩ ('a' :: '.' :: ['b']), LockOp.acq ⟨2, 2⟩ ['a']] [] =
      .ok [(['a'], ⟨'2' :: ':' :: '2' :: ':' :: ['1'], some 30⟩),
           ('a' :: '.' :: ['b'], ⟨'1' :: ':' :: '1' :: ':' :: ['1'], some 30⟩)] ∧
    (occupiedChainKeys
      [(['a'], ⟨'2' :: ':' :: '2' :: ':' :: ['1'], some 30⟩),
       ('a' :: '.' :: ['b'], ⟨'1' :: ':' :: '1' :: ':' :: ['1'], some 30⟩)]
      ('a' :: '.' :: ['b'])).length = 2 :=
  ⟨rfl, rfl⟩

/-- C2 witness: `claim2_single_occupied_chain_key` applied to the concrete
sequence acquire–acquire–release on the single path `a.b`, checked on the
chain of the path `a.b.c`. -/
theorem claim2_witness :
    (∀ op ∈ [LockOp.acq ⟨1, 1⟩ ('a' :: '.' :: ['b']),
             LockOp.acq ⟨1, 1⟩ ('a' :: '.' :: ['b']),
             LockOp.rel ⟨1, 1⟩ ('a' :: '.' :: ['b'])], op.opKey = 'a' :: '.' :: ['b']) ∧
    applyLockOps 30 10
      [LockOp.acq ⟨1, 1⟩ ('a' :: '.' :: ['b']),
       LockOp.acq ⟨1, 1⟩ ('a' :: '.' :: ['b']),
       LockOp.rel ⟨1, 1⟩ ('a' :: '.' :: ['b'])] [] =
      .ok [('a' :: '.' :: ['b'], ⟨'1' :: ':' :: '1' :: ':' :: ['1'], some 30⟩)] ∧
    (occupiedChainKeys
      [('a' :: '.' :: ['b'], ⟨'1' :: ':' :: '1' :: ':' :: ['1'], some 30⟩)]
      ('a' :: '.' :: 'b' :: '.' :: ['c'])).length ≤ 1 :=
  ⟨by decide, rfl,
    claim2_single_occupied_chain_key 30 10 ('a' :: '.' :: ['b'])
      [LockOp.acq ⟨1, 1⟩ ('a' :: '.' :: ['b']),
       LockOp.acq ⟨1, 1⟩ ('a' :: '.' :: ['b']),
       LockOp.rel ⟨1, 1⟩ ('a' :: '.' :: ['b'])]
      [('a' :: '.' :: ['b'], ⟨'1' :: ':' :: '1' :: ':' :: ['1'], some 30⟩)]
      (by decide) rfl ('a' :: '.' :: 'b' :: '.' :: ['c'])⟩

/-- C3 (amended): when release finds a token `(p, t, c)` with `c ≥ 2` at the
target key, it writes back `build_lock_token` of the *releasing*
process/thread with count `c - 1` (and reapplies the expire timeout).  When
the releaser is the stored owner — the intended usage — this coincides with
preserving the stored pid and tid; a foreign releaser overwrites them (see
the counterexample). -/
theorem claim3_release_writes_releaser_token (lk : Lock) (own : Owner)
    (s : RStore) (tok : PyStr) (p t c : Int)
    (hget : (sget s (find_root_lock_target s lk.key)).map (fun v => v.value) = some tok)
    (hparse : parse_lock_token tok = .ok (p, t, c)) (hc : 2 ≤ c) :
    ∃ s', lockRelease lk own s = .ok s' ∧
      sget s' (find_root_lock_target s lk.key) =
        some ⟨build_lock_token own (c - 1), some lk.expire_seconds⟩ ∧
      (own = ⟨p, t⟩ →
        sget s' (find_root_lock_target s lk.key) =
          some ⟨build_lock_token ⟨p, t⟩ (c - 1), some lk.expire_seconds⟩) := by
  have key_step : lockRelease lk own s =
      .ok (sexpire (sset s (find_root_lock_target s lk.key)
        (build_lock_token own (c - 1)) none) (find_root_lock_target s lk.key)
        lk.expire_seconds) := by
    rw [lockRelease]
    simp only [hget, hparse]
    rw [if_neg (by omega), if_neg (by omega)]
  refine ⟨_, key_step, ?_, ?_⟩
  · rw [sget_sexpire, if_pos rfl, sget_sset, if_pos rfl]
    rfl
  · intro ho
    subst ho
    rw [sget_sexpire, if_pos rfl, sget_sset, if_pos rfl]
    rfl

/-- C3 counterexample: the claim as stated is false.  A release by process 7,
thread 8 of a lock whose key stores the valid token `1:2:3` (depth 3 ≥ 2)
writes back `7:8:2` — the *releaser's* pid and tid — not the stored owner's
token `1:2:2`. -/
theorem claim3_counterexample :
    lockRelease ⟨['a'], 30, 10⟩ ⟨7, 8⟩
        [(['a'], ⟨'1' :: ':' :: '2' :: ':' :: ['3'], some 30⟩)] =
      .ok [(['a'], ⟨'7' :: ':' :: '8' :: ':' :: ['2'], some 30⟩)] ∧
    ('7' :: ':' :: '8' :: ':' :: ['2'] : PyStr) ≠ '1' :: ':' :: '2' :: ':' :: ['2'] :=
  ⟨rfl, by decide⟩

/-- C3 witness: `claim3_release_writes_releaser_token` applied to a release
by the stored owner `(1, 2)` of the token `1:2:3`. -/
theorem claim3_witness :
    ((sget [(['a'], (⟨'1' :: ':' :: '2' :: ':' :: ['3'], some 30⟩ : RVal))]
        (find_root_lock_target
          [(['a'], ⟨'1' :: ':' :: '2' :: ':' :: ['3'], some 30⟩)]
          (⟨['a'], 30, 10⟩ : Lock).key)).map (fun v => v.value) =
      some ('1' :: ':' :: '2' :: ':' :: ['3'])) ∧
    parse_lock_token ('1' :: ':' :: '2' :: ':' :: ['3']) = .ok (1, 2, 3) ∧
    (2 : Int) ≤ 3 ∧
    (∃ s', lockRelease ⟨['a'], 30, 10⟩ ⟨1, 2⟩
        [(['a'], ⟨'1' :: ':' :: '2' :: ':' :: ['3'], some 30⟩)] = .ok s' ∧
      sget s' (find_root_lock_target
        [(['a'], ⟨'1' :: ':' :: '2' :: ':' :: ['3'], some 30⟩)]
        (⟨['a'], 30, 10⟩ : Lock).key) =
        some ⟨build_lock_token ⟨1, 2⟩ (3 - 1), some (⟨['a'], 30, 10⟩ : Lock).expire_seconds⟩ ∧
      ((⟨1, 2⟩ : Owner) = ⟨1, 2⟩ →
        sget s' (find_root_lock_target
          [(['a'], ⟨'1' :: ':' :: '2' :: ':' :: ['3'], some 30⟩)]
          (⟨['a'], 30, 10⟩ : Lock).key) =
          some ⟨build_lock_token ⟨1, 2⟩ (3 - 1), some (⟨['a'], 30, 10⟩ : Lock).expire_seconds⟩)) :=
  ⟨rfl, rfl, by norm_num,
    claim3_release_writes_releaser_token ⟨['a'], 30, 10⟩ ⟨1, 2⟩
      [(['a'], ⟨'1' :: ':' :: '2' :: ':' :: ['3'], some 30⟩)]
      ('1' :: ':' :: '2' :: ':' :: ['3']) 1 2 3 rfl rfl (by norm_num)⟩

/-- C4: the acquire body does **not** write depth 1 when the last read of the
target key is absent but a foreign token was observed earlier in the same
pass.  `lock_count` keeps the foreign token's count across iterations, so
after observing the foreign token `9:9:5` and then absence, process 1 /
thread 2 writes `1:2:6` — depth 6 — instead of the fresh-acquire token
`1:2:1` the specification requires.  (Evaluation of the code's behaviour at
the failing input of the code_bug claim C4.) -/
theorem claim4_stale_count_eval :
    acquireBody ⟨1, 2⟩ 200
        (fun i => [some ('9' :: ':' :: '9' :: ':' :: ['5']), none].getD i none) =
      .ok ('1' :: ':' :: '2' :: ':' :: ['6']) ∧
    ('1' :: ':' :: '2' :: ':' :: ['6'] : PyStr) ≠ '1' :: ':' :: '2' :: ':' :: ['1'] :=
  ⟨rfl, by decide⟩

/-- C7 (amended): `parse_lock_token "1:2:3"` returns `(1, 2, 3)`, and an
input that splits on `':'` into fewer than three parts fails with
`InternalError`; but an input whose three parts contain a non-integer
component fails with `ValueError` — the error of the `int(...)` conversion —
not with `InternalError` (see the counterexample). -/
theorem claim7_parse_lock_token :
    parse_lock_token ('1' :: ':' :: '2' :: ':' :: ['3']) = .ok (1, 2, 3) ∧
    (∀ tok : PyStr, (splitChar ':' tok).length < 3 →
      parse_lock_token tok = .error .internalError) ∧
    (∀ tok a b c : PyStr, pySplit2 ':' tok = [a, b, c] →
      pyIntChars a = none ∨ pyIntChars b = none ∨ pyIntChars c = none →
      parse_lock_token tok = .error .valueError) := by
  refine ⟨rfl, ?_, ?_⟩
  · intro tok hlen
    have hsp : pySplit2 ':' tok = splitChar ':' tok := by
      rw [pySplit2]
      match hs : splitChar ':' tok with
      | [] => rfl
      | [x] => rfl
      | [x, y] => rfl
      | x :: y :: z :: rest =>
        rw [hs] at hlen
        simp only [List.length_cons] at hlen
        omega
    rw [parse_lock_token]
    simp only [hsp]
    rw [if_pos (by omega)]
  · intro tok a b c hsp hdisj
    rw [parse_lock_token]
    simp only [hsp]
    rw [if_neg (by simp)]
    rcases hdisj with ha | hb | hc
    · simp only [ha]
    · match hpa : pyIntChars a with
      | none => simp only [hpa]
      | some x => simp only [hpa, hb]
    · match hpa : pyIntChars a with
      | none => simp only [hpa]
      | some x =>
        match hpb : pyIntChars b with
        | none => simp only [hpa, hpb]
        | some y => simp only [hpa, hpb, hc]

/-- C7 counterexample: the claim as stated is false for non-integer parts:
`parse_lock_token "1:2:x"` fails with `ValueError` (from `int("x")`), not
with `InternalError`. -/
theorem claim7_counterexample :
    parse_lock_token ('1' :: ':' :: '2' :: ':' :: ['x']) = .error .valueError ∧
    PyErr.valueError ≠ PyErr.internalError :=
  ⟨rfl, by decide⟩

/-- C7 witness: `claim7_parse_lock_token` at the two-part token `"1:2"` and
at the non-integer token `"1:2:x"`. -/
theorem claim7_witness :
    ((splitChar ':' ('1' :: [':', '2'])).length < 3 ∧
      parse_lock_token ('1' :: [':', '2']) = .error .internalError) ∧
    (pySplit2 ':' ('1' :: ':' :: '2' :: ':' :: ['x']) = [['1'], ['2'], ['x']] ∧
      pyIntChars ['x'] = none ∧
      parse_lock_token ('1' :: ':' :: '2' :: ':' :: ['x']) = .error .valueError) :=
  ⟨⟨by decide, claim7_parse_lock_token.2.1 ('1' :: [':', '2']) (by decide)⟩,
    rfl, rfl,
    claim7_parse_lock_token.2.2 ('1' :: ':' :: '2' :: ':' :: ['x'])
      ['1'] ['2'] ['x'] rfl (Or.inr (Or.inr rfl))⟩

/-- C8: path validation fails with the path-validation error (`ValueError`,
the specification's `InvalidPath`) on the empty string, on strings starting
or ending with `'.'`, and on strings containing `".."`; the four literal
instances of the claim all fail that way, and `validate_key "a.b"`
succeeds. -/
theorem claim8_validate_key :
    (∀ key : PyStr,
        key = [] ∨ key.head? = some '.' ∨ key.getLast? = some '.' ∨
          containsSeq ['.', '.'] key = true →
        validate_key key = .error .valueError) ∧
    validate_key [] = .error .valueError ∧
    validate_key ('.' :: ['a']) = .error .valueError ∧
    validate_key ('a' :: ['.']) = .error .valueError ∧
    validate_key ('a' :: '.' :: '.' :: ['b']) = .error .valueError ∧
    validate_key ('a' :: '.' :: ['b']) = .ok () := by
  refine ⟨?_, rfl, rfl, rfl, rfl, rfl⟩
  intro key hk
  rw [validate_key]
  by_cases h0 : key.length = 0
  · rw [if_pos h0]
  · rw [if_neg h0]
    by_cases h1 : key.head? = some '.' || key.getLast? = some '.'
    · rw [if_pos h1]
    · rw [if_neg h1]
      rcases hk with rfl | hh | hh | hh
      · simp at h0
      · simp [hh] at h1
      · simp [hh] at h1
      · rw [if_pos hh]

/-- C8 witness: the general part of `claim8_validate_key` applied at the
edge-dotted key `".a"`. -/
theorem claim8_witness :
    (('.' :: ['a'] : PyStr) = [] ∨ ('.' :: ['a'] : PyStr).head? = some '.' ∨
      ('.' :: ['a'] : PyStr).getLast? = some '.' ∨
      containsSeq ['.', '.'] ('.' :: ['a']) = true) ∧
    validate_key ('.' :: ['a']) = .error .valueError :=
  ⟨Or.inr (Or.inl rfl), claim8_validate_key.1 ('.' :: ['a']) (Or.inr (Or.inl rfl))⟩

/-! ## Lemmas: the value proxy -/

theorem mem_keys_sget_isSome {s : RStore} {k : PyStr}
    (h : k ∈ s.map (fun p => p.1)) : (sget s k).isSome := by
  induction s with
  | nil => simp at h
  | cons p rest ih =>
    obtain ⟨k0, v⟩ := p
    rw [List.map_cons] at h
    rw [sget_cons]
    by_cases h0 : k0 = k
    · rw [if_pos h0]
      rfl
    · rw [if_neg h0]
      rcases List.mem_cons.mp h with he | h2
      · exact absurd he.symm h0
      · exact ih h2

theorem sget_foldl_sset {items : List (PyStr × Int)} {s : RStore}
    {expire : Option Int} {a : PyStr} (ha : ∀ q ∈ items, q.1 ≠ a) :
    sget (items.foldl (fun st p => sset st p.1 (json_dumps_scalar p.2) expire) s) a =
      sget s a := by
  induction items generalizing s with
  | nil => rfl
  | cons q rest ih =>
    rw [List.foldl_cons, ih (fun p hp => ha p (List.mem_cons_of_mem _ hp)), sget_sset,
      if_neg (fun he => ha q (List.mem_cons_self _ _) he.symm)]

theorem extract_keys_length (d : PyDict) : ∀ (pre : PyStr), pre ≠ [] →
    ∀ q ∈ extract_keys d pre, pre.length < q.1.length :=
  match d with
  | .nil => by
    intro pre _ q hq
    rw [extract_keys] at hq
    cases hq
  | .cons key (.scalar v) rest => by
    intro pre hpre q hq
    rw [extract_keys] at hq
    rcases List.mem_cons.mp hq with rfl | hq2
    · rw [dotJoin, if_neg hpre]
      simp [joinChar]
    · exact extract_keys_length rest pre hpre q hq2
  | .cons key (.dict sub) rest => by
    intro pre hpre q hq
    rw [extract_keys] at hq
    rcases List.mem_append.mp hq with hq2 | hq2
    · have hpre2 : dotJoin pre [key] ≠ [] := by
        rw [dotJoin, if_neg hpre]
        simp
      have h2 := extract_keys_length sub (dotJoin pre [key]) hpre2 q hq2
      have h3 : pre.length < (dotJoin pre [key]).length := by
        rw [dotJoin, if_neg hpre]
        simp [joinChar]
      omega
    · exact extract_keys_length rest pre hpre q hq2

theorem getFullKey_ne_nil {path : List PyStr} {key : Option PyStr} :
    getFullKey path key ≠ [] := by
  match key with
  | some k =>
    show joinChar '.' (valTreePfx :: path) ++ '.' :: k ≠ []
    simp
  | none =>
    show joinChar '.' (valTreePfx :: path) ≠ []
    match path with
    | [] => simp [joinChar, valTreePfx]
    | p :: ps => simp [joinChar, valTreePfx]

theorem joinChar_splitChar {sep : Char} {l : PyStr} :
    joinChar sep (splitChar sep l) = l := by
  induction l with
  | nil => rfl
  | cons c rest ih =>
    rw [splitChar]
    by_cases hc : c = sep
    · rw [if_pos hc]
      match hs : splitChar sep rest with
      | [] => exact absurd hs splitChar_ne_nil
      | x :: xs =>
        show ([] : PyStr) ++ sep :: joinChar sep (x :: xs) = c :: rest
        rw [List.nil_append, ← hs, ih, hc]
    · rw [if_neg hc]
      match hs : splitChar sep rest with
      | [] => exact absurd hs splitChar_ne_nil
      | [x] =>
        show (c :: x : PyStr) = c :: rest
        rw [hs] at ih
        rw [show joinChar sep [x] = x from rfl] at ih
        rw [ih]
      | x :: y :: ys =>
        show (c :: x) ++ sep :: joinChar sep (y :: ys) = c :: rest
        rw [hs] at ih
        rw [show joinChar sep (x :: y :: ys) = x ++ sep :: joinChar sep (y :: ys) from rfl] at ih
        rw [List.cons_append, ih]

theorem joinChar_append {sep : Char} {l1 l2 : List PyStr}
    (h1 : l1 ≠ []) (h2 : l2 ≠ []) :
    joinChar sep (l1 ++ l2) = joinChar sep l1 ++ sep :: joinChar sep l2 := by
  induction l1 with
  | nil => exact absurd rfl h1
  | cons x rest ih =>
    match rest with
    | [] =>
      match hl2 : l2 with
      | [] => exact absurd rfl h2
      | y :: ys =>
        show x ++ sep :: joinChar sep (y :: ys) = joinChar sep [x] ++ sep :: joinChar sep (y :: ys)
        rfl
    | r :: rs =>
      show x ++ sep :: joinChar sep ((r :: rs) ++ l2) =
        (x ++ sep :: joinChar sep (r :: rs)) ++ sep :: joinChar sep l2
      rw [ih (by simp)]
      simp

theorem getFullKey_child {path : List PyStr} {key : PyStr} :
    getFullKey (path ++ splitChar '.' key) none = getFullKey path (some key) := by
  show joinChar '.' (valTreePfx :: (path ++ splitChar '.' key)) =
    joinChar '.' (valTreePfx :: path) ++ '.' :: key
  rw [show valTreePfx :: (path ++ splitChar '.' key) =
    (valTreePfx :: path) ++ splitChar '.' key from rfl]
  rw [joinChar_append (by simp) splitChar_ne_nil, joinChar_splitChar]

/-- C6: after `set` stores a value under the value-tree key `K`, every proper
ancestor key of `K` (up to and including the root value key `v:`) is absent
from the backend: `clear_parents` deletes the whole ancestor chain above `K`
first, and all subsequent writes land at `K` or strictly below it. -/
theorem claim6_set_clears_ancestors (s : RStore) (path : List PyStr) (key : PyStr)
    (value : PyObj) (expire : Option Int) (st : RStore)
    (h : proxySet s path key value expire = .ok st) :
    ∀ a ∈ (build_key_hierarchy (getFullKey path (some key))).tail, sget st a = none := by
  intro a ha
  have halen : a.length < (getFullKey path (some key)).length :=
    mem_hierarchyRestAux_length ha
  have hclear : sget (clear_parents s (getFullKey path (some key))) a = none := by
    rw [clear_parents, sget_foldl_sdel, if_pos ha]
  rw [proxySet] at h
  match hv : validate_key key with
  | .error e =>
    rw [hv] at h
    have h2 : (Except.error e : Except PyErr RStore) = .ok st := h
    cases h2
  | .ok u =>
    rw [hv] at h
    match value with
    | .scalar v =>
      have h2 : Except.ok (ε := PyErr) (sset (clear_parents s (getFullKey path (some key)))
          (getFullKey path (some key)) (json_dumps_scalar v) expire) = .ok st := h
      have h3 := Except.ok.inj h2
      rw [← h3, sget_sset, if_neg (by intro he; rw [he] at halen; omega)]
      exact hclear
    | .dict dd =>
      have h2 : Except.ok (ε := PyErr) ((extract_keys dd (getFullKey path (some key))).foldl
          (fun st p => sset st p.1 (json_dumps_scalar p.2) expire)
          (proxyClear (clear_parents s (getFullKey path (some key)))
            (getFullKey (path ++ splitChar '.' key) none))) = .ok st := h
      have h3 := Except.ok.inj h2
      rw [← h3]
      rw [sget_foldl_sset (fun q hq he => by
        have hlen := extract_keys_length dd (getFullKey path (some key))
          getFullKey_ne_nil q hq
        rw [he] at hlen
        omega)]
      rw [proxyClear, sget_foldl_sdel]
      by_cases hm : a ∈ get_sub_keys (clear_parents s (getFullKey path (some key)))
          (getFullKey (path ++ splitChar '.' key) none)
      · rw [if_pos hm]
      · rw [if_neg hm]
        exact hclear

/-- C10: `set(sub, {})` with an empty mapping deletes the key `K` of the
sub-path and every descendant key, and writes no key at all: afterwards no
new key exists, `exists()` is false, and `val(default)` returns the default
(`None` when no default is given). -/
theorem claim10_set_empty_dict_clears (s : RStore) (path : List PyStr) (key : PyStr)
    (expire : Option Int) (st : RStore)
    (h : proxySet s path key (.dict .nil) expire = .ok st) :
    sget st (getFullKey path (some key)) = none ∧
    (∀ k, leadB (getFullKey path (some key) ++ ['.']) k = true → sget st k = none) ∧
    (∀ k, (sget st k).isSome → (sget s k).isSome) ∧
    proxyExists st (getFullKey path (some key)) = false ∧
    (∀ dflt, proxyVal st (getFullKey path (some key)) dflt = dflt) := by
  rw [proxySet] at h
  match hv : validate_key key with
  | .error e =>
    rw [hv] at h
    have h2 : (Except.error e : Except PyErr RStore) = .ok st := h
    cases h2
  | .ok u =>
    rw [hv] at h
    have h2 : Except.ok (ε := PyErr)
        (proxyClear (clear_parents s (getFullKey path (some key)))
          (getFullKey (path ++ splitChar '.' key) none)) = .ok st := h
    have h3 := Except.ok.inj h2
    rw [getFullKey_child] at h3
    -- abbreviations
    have hmemfull : getFullKey path (some key) ∈
        get_sub_keys (clear_parents s (getFullKey path (some key)))
          (getFullKey path (some key)) := by
      rw [get_sub_keys]
      exact List.mem_append.mpr (Or.inr (List.mem_singleton.mpr rfl))
    have hF1 : sget st (getFullKey path (some key)) = none := by
      rw [← h3, proxyClear, sget_foldl_sdel, if_pos hmemfull]
    have hF2 : ∀ k, leadB (getFullKey path (some key) ++ ['.']) k = true →
        sget st k = none := by
      intro k hpref
      rw [← h3, proxyClear, sget_foldl_sdel]
      by_cases hk : (sget (clear_parents s (getFullKey path (some key))) k).isSome
      · have hmemk : k ∈ get_sub_keys (clear_parents s (getFullKey path (some key)))
            (getFullKey path (some key)) := by
          rw [get_sub_keys, scanKeys]
          exact List.mem_append.mpr (Or.inl (List.mem_filter.mpr
            ⟨sget_isSome_mem_keys hk, hpref⟩))
        rw [if_pos hmemk]
      · by_cases hmemk : k ∈ get_sub_keys (clear_parents s (getFullKey path (some key)))
            (getFullKey path (some key))
        · rw [if_pos hmemk]
        · rw [if_neg hmemk]
          exact Option.not_isSome_iff_eq_none.mp hk
    have hF3 : ∀ k, (sget st k).isSome → (sget s k).isSome := by
      intro k hk
      rw [← h3, proxyClear, sget_foldl_sdel] at hk
      by_cases hmemk : k ∈ get_sub_keys (clear_parents s (getFullKey path (some key)))
          (getFullKey path (some key))
      · rw [if_pos hmemk] at hk
        cases hk
      · rw [if_neg hmemk] at hk
        rw [clear_parents, sget_foldl_sdel] at hk
        by_cases hmemt : k ∈ (build_key_hierarchy (getFullKey path (some key))).tail
        · rw [if_pos hmemt] at hk
          cases hk
        · rw [if_neg hmemt] at hk
          exact hk
    have hscan : scanKeys st (getFullKey path (some key)) = [] := by
      rw [scanKeys, List.filter_eq_nil_iff]
      intro k hkmem hpref
      have := mem_keys_sget_isSome hkmem
      rw [hF2 k hpref] at this
      cases this
    refine ⟨hF1, hF2, hF3, ?_, ?_⟩
    · rw [proxyExists, hF1]
      rfl
    · intro dflt
      rw [proxyVal]
      rw [show (sget st (getFullKey path (some key))).map (fun v => v.value) = none by
        rw [hF1]; rfl]
      simp only [hscan, List.foldl_nil]
      rw [if_pos (show entriesLength .nil = 0 from rfl)]
      match dflt with
      | none =>
        rw [if_pos]
        rw [show Option.isNone (none : Option PyObj) = true from rfl, Bool.true_and,
          proxyExists, hF1]
        rfl
      | some x =>
        rw [if_neg]
        rw [show Option.isNone (some x) = false from rfl, Bool.false_and]
        simp

/-- C6 witness: `claim6_set_clears_ancestors` on a store holding a scalar at
the ancestor `v:.p`; after `set("p.a", 7)` from the root proxy, the ancestor
key `v:.p` is gone. -/
theorem claim6_witness :
    proxySet [(('v' :: ':' :: '.' :: ['p']), ⟨['5'], none⟩)] [] ('p' :: '.' :: ['a'])
        (.scalar 7) none =
      .ok [(('v' :: ':' :: '.' :: 'p' :: '.' :: ['a']), ⟨['7'], none⟩)] ∧
    ('v' :: ':' :: '.' :: ['p']) ∈
      (build_key_hierarchy (getFullKey [] (some ('p' :: '.' :: ['a'])))).tail ∧
    sget [(('v' :: ':' :: '.' :: 'p' :: '.' :: ['a']), ⟨['7'], none⟩)]
      ('v' :: ':' :: '.' :: ['p']) = none :=
  ⟨rfl, by decide,
    claim6_set_clears_ancestors [(('v' :: ':' :: '.' :: ['p']), ⟨['5'], none⟩)] []
      ('p' :: '.' :: ['a']) (.scalar 7) none
      [(('v' :: ':' :: '.' :: 'p' :: '.' :: ['a']), ⟨['7'], none⟩)] rfl
      ('v' :: ':' :: '.' :: ['p']) (by decide)⟩

/-- C10 witness: `claim10_set_empty_dict_clears` on a store holding the key
`v:.p.a`, a descendant `v:.p.a.x`, and an unrelated key `q`; after
`set("p.a", {})` only `q` survives, `exists()` is false and `val()` is
`None`. -/
theorem claim10_witness :
    proxySet [(('v' :: ':' :: '.' :: 'p' :: '.' :: ['a']), ⟨['5'], none⟩),
              (('v' :: ':' :: '.' :: 'p' :: '.' :: 'a' :: '.' :: ['x']), ⟨['6'], some 9⟩),
              (['q'], ⟨['5'], none⟩)] [] ('p' :: '.' :: ['a']) (.dict .nil) none =
      .ok [(['q'], ⟨['5'], none⟩)] ∧
    sget [(['q'], (⟨['5'], none⟩ : RVal))] (getFullKey [] (some ('p' :: '.' :: ['a']))) = none ∧
    proxyExists [(['q'], (⟨['5'], none⟩ : RVal))]
      (getFullKey [] (some ('p' :: '.' :: ['a']))) = false ∧
    proxyVal [(['q'], (⟨['5'], none⟩ : RVal))]
      (getFullKey [] (some ('p' :: '.' :: ['a']))) none = none ∧
    proxyVal [(['q'], (⟨['5'], none⟩ : RVal))]
      (getFullKey [] (some ('p' :: '.' :: ['a']))) (some (.scalar 42)) = some (.scalar 42) := by
  have hmain := claim10_set_empty_dict_clears
    [(('v' :: ':' :: '.' :: 'p' :: '.' :: ['a']), ⟨['5'], none⟩),
     (('v' :: ':' :: '.' :: 'p' :: '.' :: 'a' :: '.' :: ['x']), ⟨['6'], some 9⟩),
     (['q'], ⟨['5'], none⟩)] [] ('p' :: '.' :: ['a']) none
    [(['q'], ⟨['5'], none⟩)] rfl
  exact ⟨rfl, hmain.1, hmain.2.2.2.1, hmain.2.2.2.2 none, hmain.2.2.2.2 (some (.scalar 42))⟩

/-- C9: `time_to_live()` returns the TTL of the first key yielded by the
subtree scan of the proxy's value key `K` (the keys matching `K.*` first,
then `K` itself), and returns null when no key exists at `K` or below it —
the backend's `TTL` of a missing key is null in the redis-py generation this
library targets. -/
theorem claim9_time_to_live (s : RStore) (path : List PyStr) :
    (∃ k rest, get_sub_keys s (getFullKey path none) = k :: rest ∧
      time_to_live s (getFullKey path none) = sttl s k) ∧
    ((∀ k, (k = getFullKey path none ∨
        leadB (getFullKey path none ++ ['.']) k = true) → sget s k = none) →
      time_to_live s (getFullKey path none) = none) := by
  constructor
  · match hs : scanKeys s (getFullKey path none) with
    | [] =>
      refine ⟨getFullKey path none, [], ?_, ?_⟩
      · rw [get_sub_keys, hs]
        rfl
      · rw [time_to_live, get_sub_keys, hs]
        rfl
    | k :: rest =>
      refine ⟨k, rest ++ [getFullKey path none], ?_, ?_⟩
      · rw [get_sub_keys, hs]
        rfl
      · rw [time_to_live, get_sub_keys, hs]
        rfl
  · intro habsent
    have hs : scanKeys s (getFullKey path none) = [] := by
      rw [scanKeys, List.filter_eq_nil_iff]
      intro k hkmem hpref
      have := mem_keys_sget_isSome hkmem
      rw [habsent k (Or.inr hpref)] at this
      cases this
    rw [time_to_live, get_sub_keys, hs]
    show sttl s (getFullKey path none) = none
    rw [sttl, habsent (getFullKey path none) (Or.inl rfl)]
    rfl

/-- C9 witness: `claim9_time_to_live` on the empty store at path `p`: the
scan yields only the own key `v:.p`, and with no key at `v:.p` or below,
`time_to_live` is null. -/
theorem claim9_witness :
    ((∃ k rest, get_sub_keys [] (getFullKey [['p']] none) = k :: rest ∧
        time_to_live [] (getFullKey [['p']] none) = sttl [] k) ∧
      ((∀ k, (k = getFullKey [['p']] none ∨
          leadB (getFullKey [['p']] none ++ ['.']) k = true) →
        sget [] k = none) → time_to_live [] (getFullKey [['p']] none) = none)) ∧
    time_to_live [] (getFullKey [['p']] none) = none :=
  ⟨claim9_time_to_live [] [['p']],
    (claim9_time_to_live [] [['p']]).2 (fun _ _ => rfl)⟩

/-! ## Lemmas: flatten/unflatten round trip (claim C5) -/

theorem lookupPath_entries_nil {q : List PyStr} : lookupPath .nil q = none := by
  match q with
  | [] => rfl
  | k :: rest => rfl

theorem leadB_refl {α : Type} [DecidableEq α] {l : List α} : leadB l l = true := by
  induction l with
  | nil => rfl
  | cons a rest ih => simp [leadB, ih]

theorem leadB_cons_cons {α : Type} [DecidableEq α] {a : α} {x y : List α} :
    leadB (a :: x) (a :: y) = leadB x y := by
  simp [leadB]

theorem leadB_cons_ne {α : Type} [DecidableEq α] {a b : α} {x y : List α}
    (h : a ≠ b) : leadB (a :: x) (b :: y) = false := by
  simp [leadB, h]

theorem dictGet_dictSet (d : PyDict) (k k' : PyStr) (v : PyObj) :
    dictGet (dictSet d k v) k' = if k = k' then some v else dictGet d k' :=
  match d with
  | .nil => by
    rw [dictSet]
    by_cases h : k = k' <;> simp [dictGet, h]
  | .cons k0 v0 rest => by
    rw [dictSet]
    by_cases h0 : k0 = k
    · rw [if_pos h0, dictGet]
      by_cases h' : k = k'
      · rw [if_pos h', if_pos h']
      · rw [if_neg h', if_neg h', dictGet, if_neg (fun he => h' (h0.symm.trans he))]
    · rw [if_neg h0, dictGet]
      by_cases h1 : k0 = k'
      · rw [if_pos h1, if_neg (fun he : k = k' => h0 (h1.trans he.symm)), dictGet, if_pos h1]
      · rw [if_neg h1, dictGet_dictSet rest k k' v, dictGet, if_neg h1]

theorem feedPath_lookup : ∀ (ini : List PyStr) (d : PyDict) (last : PyStr) (x : Int),
    (∀ ps, lookupPath d ps ≠ none →
      leadB ps (ini ++ [last]) = false ∧ leadB (ini ++ [last]) ps = false) →
    ∀ q, lookupPath (feedPath d ini last (.scalar x)) q =
      if q = ini ++ [last] then some x else lookupPath d q := by
  intro ini
  induction ini with
  | nil =>
    intro d last x H q
    rw [show feedPath d [] last (.scalar x) = dictSet d last (.scalar x) from rfl]
    match q with
    | [] =>
      rw [if_neg (by simp)]
      rfl
    | k :: rest =>
      rw [lookupPath, dictGet_dictSet]
      by_cases hk : last = k
      · subst hk
        rw [if_pos rfl]
        show (if rest = [] then some x else none) =
          if last :: rest = [] ++ [last] then some x else lookupPath d (last :: rest)
        by_cases hrest : rest = []
        · subst hrest
          rw [if_pos rfl]
          simp
        · rw [if_neg hrest, if_neg (by simp [hrest])]
          match hlook : lookupPath d (last :: rest) with
          | none => rfl
          | some w =>
            have hcontra := (H (last :: rest) (by rw [hlook]; simp)).2
            rw [List.nil_append, leadB_cons_cons] at hcontra
            rw [show leadB ([] : List PyStr) rest = true from rfl] at hcontra
            cases hcontra
      · rw [if_neg hk]
        show (match dictGet d k with
          | some (.scalar v) => if rest = [] then some v else none
          | some (.dict sub) => if rest = [] then none else lookupPath sub rest
          | none => none) =
          if k :: rest = [] ++ [last] then some x else lookupPath d (k :: rest)
        rw [if_neg (by simp; intro he; exact absurd he.symm hk), lookupPath]
  | cons k0 ks ih =>
    intro d last x H q
    have hstep : ∀ (sub : PyDict),
        (∀ ps, lookupPath sub ps ≠ none →
          leadB ps (ks ++ [last]) = false ∧ leadB (ks ++ [last]) ps = false) →
        (dictGet d k0 = some (.dict sub) ∨
          (dictGet d k0 = none ∨ ∃ w, dictGet d k0 = some (.scalar w)) ∧ sub = .nil) →
        lookupPath (dictSet d k0 (.dict (feedPath sub ks last (.scalar x)))) q =
          if q = (k0 :: ks) ++ [last] then some x else lookupPath d q := by
      intro sub Hsub hget
      match q with
      | [] =>
        rw [if_neg (by simp)]
        rfl
      | k :: rest =>
        rw [lookupPath, dictGet_dictSet]
        by_cases hk : k0 = k
        · subst hk
          rw [if_pos rfl]
          show (if rest = [] then none else lookupPath (feedPath sub ks last (.scalar x)) rest) =
            if k0 :: rest = (k0 :: ks) ++ [last] then some x else lookupPath d (k0 :: rest)
          by_cases hrest : rest = []
          · subst hrest
            rw [if_pos rfl, if_neg (by simp)]
            rcases hget with hget | ⟨hget2, rfl⟩
            · simp [lookupPath, hget]
            · rcases hget2 with hget2 | ⟨w, hget2⟩
              · simp [lookupPath, hget2]
              · have hv : lookupPath d [k0] ≠ none := by
                  simp [lookupPath, hget2]
                have hcontra := (H [k0] hv).1
                rw [show ((k0 :: ks) ++ [last] : List PyStr) = k0 :: (ks ++ [last]) from rfl,
                  leadB_cons_cons] at hcontra
                rw [show leadB ([] : List PyStr) (ks ++ [last]) = true from rfl] at hcontra
                cases hcontra
          · rw [if_neg hrest, ih sub last x Hsub rest]
            rw [show ((k0 :: ks) ++ [last] : List PyStr) = k0 :: (ks ++ [last]) from rfl]
            by_cases hq : rest = ks ++ [last]
            · rw [if_pos hq, if_pos (by rw [hq])]
            · rw [if_neg hq, if_neg (fun he => hq (by simpa using he))]
              rcases hget with hget | ⟨hget2, rfl⟩
              · simp [lookupPath, hget, hrest]
              · rw [lookupPath_entries_nil]
                rcases hget2 with hget2 | ⟨w, hget2⟩
                · simp [lookupPath, hget2]
                · simp [lookupPath, hget2, hrest]
        · rw [if_neg hk]
          rw [if_neg (fun he : k :: rest = (k0 :: ks) ++ [last] => by
            rw [show ((k0 :: ks) ++ [last] : List PyStr) = k0 :: (ks ++ [last]) from rfl] at he
            injection he with h1 h2
            exact hk h1.symm)]
          rw [lookupPath]
    match hget : dictGet d k0 with
    | some (.dict sub) =>
      have Hsub : ∀ ps, lookupPath sub ps ≠ none →
          leadB ps (ks ++ [last]) = false ∧ leadB (ks ++ [last]) ps = false := by
        intro ps hps
        match ps, hps with
        | [], hps => exact absurd rfl hps
        | p1 :: prest, hps =>
          have hd : lookupPath d (k0 :: p1 :: prest) ≠ none := by
            simpa [lookupPath, hget] using hps
          have hh := H (k0 :: p1 :: prest) hd
          rw [show ((k0 :: ks) ++ [last] : List PyStr) = k0 :: (ks ++ [last]) from rfl] at hh
          rw [leadB_cons_cons, leadB_cons_cons] at hh
          exact hh
      have hfeed : feedPath d (k0 :: ks) last (.scalar x) =
          dictSet d k0 (.dict (feedPath sub ks last (.scalar x))) := by
        rw [feedPath, hget]
      rw [hfeed]
      exact hstep sub Hsub (Or.inl hget)
    | some (.scalar w) =>
      have hfeed : feedPath d (k0 :: ks) last (.scalar x) =
          dictSet d k0 (.dict (feedPath .nil ks last (.scalar x))) := by
        rw [feedPath, hget]
      rw [hfeed]
      exact hstep .nil (fun ps hps => absurd lookupPath_entries_nil hps)
        (Or.inr ⟨Or.inr ⟨w, hget⟩, rfl⟩)
    | none =>
      have hfeed : feedPath d (k0 :: ks) last (.scalar x) =
          dictSet d k0 (.dict (feedPath .nil ks last (.scalar x))) := by
        rw [feedPath, hget]
      rw [hfeed]
      exact hstep .nil (fun ps hps => absurd lookupPath_entries_nil hps)
        (Or.inr ⟨Or.inl hget, rfl⟩)

theorem splitLast_spec {α : Type} : ∀ (l : List α), l ≠ [] →
    ∃ ini last, splitLast l = some (ini, last) ∧ l = ini ++ [last] := by
  intro l
  induction l with
  | nil => intro h; exact absurd rfl h
  | cons a rest ih =>
    intro _
    match rest, ih with
    | [], _ => exact ⟨[], a, rfl, rfl⟩
    | b :: rs, ih =>
      rcases ih (by simp) with ⟨ini, last, hsp, heq⟩
      refine ⟨a :: ini, last, ?_, ?_⟩
      · rw [splitLast, hsp]
        rfl
      · rw [List.cons_append, ← heq]

theorem feedAll_lookup : ∀ (L : List (PyStr × Int)) (d : PyDict),
    L.Pairwise (fun a b => leadB (splitChar '.' a.1) (splitChar '.' b.1) = false ∧
      leadB (splitChar '.' b.1) (splitChar '.' a.1) = false) →
    (∀ ps, lookupPath d ps ≠ none → ∀ p ∈ L,
      leadB ps (splitChar '.' p.1) = false ∧ leadB (splitChar '.' p.1) ps = false) →
    ∀ q, lookupPath (feedAll L d) q =
      (match L.find? (fun p => decide (splitChar '.' p.1 = q)) with
       | some p => some p.2
       | none => lookupPath d q) := by
  intro L
  induction L with
  | nil => intro d _ _ q; rfl
  | cons head tl ih =>
    intro d hpw hcompat q
    obtain ⟨k, x⟩ := head
    rcases splitLast_spec (splitChar '.' k) splitChar_ne_nil with ⟨ini, last, hsp, heq⟩
    have hB : ∀ q', lookupPath (feedPath d ini last (.scalar x)) q' =
        if q' = ini ++ [last] then some x else lookupPath d q' := by
      apply feedPath_lookup
      intro ps hps
      have hc := hcompat ps hps (k, x) (List.mem_cons_self _ _)
      rw [heq] at hc
      exact hc
    have hpw_tl := (List.pairwise_cons.mp hpw).2
    have hhead := (List.pairwise_cons.mp hpw).1
    have hstep : feedAll ((k, x) :: tl) d = feedAll tl (feedPath d ini last (.scalar x)) := by
      rw [show feedAll ((k, x) :: tl) d =
        feedAll tl (feed_to_nested d k (.scalar x)) from rfl]
      rw [feed_to_nested, hsp]
    rw [hstep]
    have hcompat2 : ∀ ps, lookupPath (feedPath d ini last (.scalar x)) ps ≠ none →
        ∀ p ∈ tl, leadB ps (splitChar '.' p.1) = false ∧
          leadB (splitChar '.' p.1) ps = false := by
      intro ps hps p hp
      rw [hB ps] at hps
      by_cases hpse : ps = ini ++ [last]
      · subst hpse
        have hh := hhead p hp
        rw [heq] at hh
        exact hh
      · rw [if_neg hpse] at hps
        exact hcompat ps hps p (List.mem_cons_of_mem _ hp)
    rw [ih _ hpw_tl hcompat2 q]
    by_cases hkq : splitChar '.' k = q
    · have hfind_tl : tl.find? (fun p => decide (splitChar '.' p.1 = q)) = none := by
        rw [List.find?_eq_none]
        intro p hp
        simp only [decide_eq_true_eq]
        intro hpq
        have hh := (hhead p hp).1
        rw [hkq, hpq] at hh
        rw [leadB_refl] at hh
        cases hh
      rw [hfind_tl, List.find?_cons_of_pos _ (by simp [hkq])]
      show lookupPath (feedPath d ini last (.scalar x)) q = some x
      rw [hB q, if_pos (hkq.symm.trans heq)]
    · rw [List.find?_cons_of_neg _ (by simp [hkq])]
      match hf : tl.find? (fun p => decide (splitChar '.' p.1 = q)) with
      | some p =>
        rw [hf]
      | none =>
        rw [hf]
        show lookupPath (feedPath d ini last (.scalar x)) q = lookupPath d q
        rw [hB q, if_neg (fun he => hkq (heq.trans he.symm))]

theorem cleanD_cons {key : PyStr} {v : PyObj} {rest : PyDict}
    (h : cleanD (.cons key v rest) = true) :
    key ≠ [] ∧ (∀ c ∈ key, c ≠ '.') ∧ dictGet rest key = none ∧
      (match v with
       | .scalar _ => true
       | .dict sub => cleanD sub) = true ∧ cleanD rest = true := by
  match v, h with
  | .scalar w, h =>
    rw [show cleanD (.cons key (.scalar w) rest) =
        (decide (key ≠ []) && key.all (fun c => decide (c ≠ '.')) &&
          !(dictGet rest key).isSome && true && cleanD rest) from rfl,
      Bool.and_eq_true, Bool.and_eq_true, Bool.and_eq_true, Bool.and_eq_true] at h
    obtain ⟨⟨⟨⟨h1, h2⟩, h3⟩, _⟩, h5⟩ := h
    refine ⟨by simpa using h1, ?_, ?_, rfl, h5⟩
    · intro c hc
      have hcc := List.all_eq_true.mp h2 c hc
      simpa using hcc
    · have hs : (dictGet rest key).isSome = false := by simpa using h3
      match hg : dictGet rest key with
      | none => rfl
      | some w2 => rw [hg] at hs; cases hs
  | .dict sub, h =>
    rw [show cleanD (.cons key (.dict sub) rest) =
        (decide (key ≠ []) && key.all (fun c => decide (c ≠ '.')) &&
          !(dictGet rest key).isSome && cleanD sub && cleanD rest) from rfl,
      Bool.and_eq_true, Bool.and_eq_true, Bool.and_eq_true, Bool.and_eq_true] at h
    obtain ⟨⟨⟨⟨h1, h2⟩, h3⟩, h4⟩, h5⟩ := h
    refine ⟨by simpa using h1, ?_, ?_, h4, h5⟩
    · intro c hc
      have hcc := List.all_eq_true.mp h2 c hc
      simpa using hcc
    · have hs : (dictGet rest key).isSome = false := by simpa using h3
      match hg : dictGet rest key with
      | none => rfl
      | some w2 => rw [hg] at hs; cases hs

theorem leafPaths_head_mem (d : PyDict) : ∀ p ∈ leafPaths d,
    ∃ k t, p.1 = k :: t ∧ (dictGet d k).isSome :=
  match d with
  | .nil => by
    intro p hp
    rw [leafPaths] at hp
    cases hp
  | .cons key (.scalar v) rest => by
    intro p hp
    rw [leafPaths] at hp
    rcases List.mem_cons.mp hp with rfl | hp2
    · exact ⟨key, [], rfl, by rw [dictGet, if_pos rfl]; rfl⟩
    · rcases leafPaths_head_mem rest p hp2 with ⟨k, t, h1, h2⟩
      refine ⟨k, t, h1, ?_⟩
      rw [dictGet]
      by_cases hke : key = k
      · rw [if_pos hke]
        rfl
      · rw [if_neg hke]
        exact h2
  | .cons key (.dict sub) rest => by
    intro p hp
    rw [leafPaths] at hp
    rcases List.mem_append.mp hp with hp2 | hp2
    · rcases List.mem_map.mp hp2 with ⟨p0, hp0, rfl⟩
      exact ⟨key, p0.1, rfl, by rw [dictGet, if_pos rfl]; rfl⟩
    · rcases leafPaths_head_mem rest p hp2 with ⟨k, t, h1, h2⟩
      refine ⟨k, t, h1, ?_⟩
      rw [dictGet]
      by_cases hke : key = k
      · rw [if_pos hke]
        rfl
      · rw [if_neg hke]
        exact h2

theorem leafPaths_clean (d : PyDict) : cleanD d = true → ∀ p ∈ leafPaths d,
    p.1 ≠ [] ∧ ∀ e ∈ p.1, e ≠ [] ∧ ∀ c ∈ e, c ≠ '.' :=
  match d with
  | .nil => by
    intro _ p hp
    rw [leafPaths] at hp
    cases hp
  | .cons key (.scalar v) rest => by
    intro hc p hp
    obtain ⟨hk1, hk2, _, _, hrest⟩ := cleanD_cons hc
    rw [leafPaths] at hp
    rcases List.mem_cons.mp hp with rfl | hp2
    · refine ⟨by simp, ?_⟩
      intro e he
      rw [List.mem_singleton] at he
      subst he
      exact ⟨hk1, hk2⟩
    · exact leafPaths_clean rest hrest p hp2
  | .cons key (.dict sub) rest => by
    intro hc p hp
    obtain ⟨hk1, hk2, _, hsub, hrest⟩ := cleanD_cons hc
    rw [leafPaths] at hp
    rcases List.mem_append.mp hp with hp2 | hp2
    · rcases List.mem_map.mp hp2 with ⟨p0, hp0, rfl⟩
      have h0 := leafPaths_clean sub hsub p0 hp0
      refine ⟨by simp, ?_⟩
      intro e he
      rcases List.mem_cons.mp he with rfl | he2
      · exact ⟨hk1, hk2⟩
      · exact h0.2 e he2
    · exact leafPaths_clean rest hrest p hp2

theorem leafPaths_pairwise (d : PyDict) : cleanD d = true →
    (leafPaths d).Pairwise (fun a b => leadB a.1 b.1 = false ∧ leadB b.1 a.1 = false) :=
  match d with
  | .nil => by
    intro _
    rw [leafPaths]
    exact List.Pairwise.nil
  | .cons key (.scalar v) rest => by
    intro hc
    obtain ⟨_, _, hnod, _, hrest⟩ := cleanD_cons hc
    rw [leafPaths]
    refine List.pairwise_cons.mpr ⟨?_, leafPaths_pairwise rest hrest⟩
    intro b hb
    rcases leafPaths_head_mem rest b hb with ⟨k2, t2, hb1, hb2⟩
    have hkne : key ≠ k2 := fun he => by rw [← he, hnod] at hb2; cases hb2
    constructor
    · rw [hb1]
      exact leadB_cons_ne hkne
    · rw [hb1]
      exact leadB_cons_ne (fun he => hkne he.symm)
  | .cons key (.dict sub) rest => by
    intro hc
    obtain ⟨_, _, hnod, hsub, hrest⟩ := cleanD_cons hc
    rw [leafPaths, List.pairwise_append]
    refine ⟨?_, leafPaths_pairwise rest hrest, ?_⟩
    · rw [List.pairwise_map]
      exact (leafPaths_pairwise sub hsub).imp (fun hab =>
        ⟨by rw [leadB_cons_cons]; exact hab.1, by rw [leadB_cons_cons]; exact hab.2⟩)
    · intro a ha b hb
      rcases List.mem_map.mp ha with ⟨p0, hp0, rfl⟩
      rcases leafPaths_head_mem rest b hb with ⟨k2, t2, hb1, hb2⟩
      have hkne : key ≠ k2 := fun he => by rw [← he, hnod] at hb2; cases hb2
      constructor
      · rw [hb1]
        exact leadB_cons_ne hkne
      · rw [hb1]
        exact leadB_cons_ne (fun he => hkne he.symm)

theorem joinChar_cons_of_ne_nil {sep : Char} {x : PyStr} {rest : List PyStr}
    (h : rest ≠ []) :
    joinChar sep (x :: rest) = x ++ sep :: joinChar sep rest := by
  match rest with
  | [] => exact absurd rfl h
  | y :: ys => rfl

theorem dotJoin_assoc {pre key : PyStr} {ps : List PyStr} (hkey : key ≠ [])
    (hps : ps ≠ []) :
    dotJoin (dotJoin pre [key]) ps = dotJoin pre (key :: ps) := by
  by_cases hpre : pre = []
  · subst hpre
    rw [show dotJoin [] [key] = key by rw [dotJoin, if_pos rfl]; rfl]
    rw [dotJoin, if_neg hkey, dotJoin, if_pos rfl, joinChar_cons_of_ne_nil hps]
  · rw [show dotJoin pre [key] = pre ++ '.' :: key by rw [dotJoin, if_neg hpre]; rfl]
    rw [dotJoin, if_neg (by simp), dotJoin, if_neg hpre, joinChar_cons_of_ne_nil hps]
    simp

theorem extract_keys_eq_leafPaths (d : PyDict) : ∀ (pre : PyStr), cleanD d = true →
    extract_keys d pre = (leafPaths d).map (fun p => (dotJoin pre p.1, p.2)) :=
  match d with
  | .nil => by
    intro pre _
    rfl
  | .cons key (.scalar v) rest => by
    intro pre hc
    obtain ⟨_, _, _, _, hrest⟩ := cleanD_cons hc
    rw [extract_keys, leafPaths, List.map_cons, extract_keys_eq_leafPaths rest pre hrest]
  | .cons key (.dict sub) rest => by
    intro pre hc
    obtain ⟨hk1, _, _, hsub, hrest⟩ := cleanD_cons hc
    rw [extract_keys, leafPaths, List.map_append, List.map_map,
      extract_keys_eq_leafPaths rest pre hrest,
      extract_keys_eq_leafPaths sub (dotJoin pre [key]) hsub]
    congr 1
    apply List.map_congr_left
    intro p0 hp0
    rcases leafPaths_head_mem sub p0 hp0 with ⟨k2, t2, hp1, _⟩
    show (dotJoin (dotJoin pre [key]) p0.1, p0.2) =
      (dotJoin pre (key :: p0.1), p0.2)
    rw [dotJoin_assoc hk1 (by rw [hp1]; simp)]

theorem splitChar_joinChar_clean : ∀ (ps : List PyStr),
    (∀ e ∈ ps, ∀ c ∈ e, c ≠ '.') → ps ≠ [] →
    splitChar '.' (joinChar '.' ps) = ps := by
  intro ps
  induction ps with
  | nil => intro _ h; exact absurd rfl h
  | cons x rest ih =>
    intro hel _
    match rest with
    | [] =>
      rw [show joinChar '.' [x] = x from rfl]
      rw [splitChar_of_not_mem (fun hc => hel x (by simp) '.' hc rfl)]
    | y :: ys =>
      rw [joinChar_cons_of_ne_nil (by simp)]
      rw [splitChar_append_sep (fun hmem => hel x (by simp) '.' hmem rfl)]
      rw [ih (fun e he => hel e (List.mem_cons_of_mem _ he)) (by simp)]

theorem lookupPath_cons_unfold (d : PyDict) (k : PyStr) (qr : List PyStr) :
    lookupPath d (k :: qr) = (match dictGet d k with
      | some (.scalar v) => if qr = [] then some v else none
      | some (.dict sub) => if qr = [] then none else lookupPath sub qr
      | none => none) := rfl

theorem lookupPath_cons_scalar {d : PyDict} {k : PyStr} {v : Int}
    (h : dictGet d k = some (.scalar v)) (qr : List PyStr) :
    lookupPath d (k :: qr) = if qr = [] then some v else none := by
  rw [lookupPath_cons_unfold, h]

theorem lookupPath_cons_dict {d : PyDict} {k : PyStr} {sub : PyDict}
    (h : dictGet d k = some (.dict sub)) (qr : List PyStr) :
    lookupPath d (k :: qr) = if qr = [] then none else lookupPath sub qr := by
  rw [lookupPath_cons_unfold, h]

theorem lookupPath_cons_none {d : PyDict} {k : PyStr}
    (h : dictGet d k = none) (qr : List PyStr) :
    lookupPath d (k :: qr) = none := by
  rw [lookupPath_cons_unfold, h]

theorem dictGet_pruneD_none : ∀ (d : PyDict) (k : PyStr), dictGet d k = none →
    dictGet (pruneD d) k = none
  | .nil, _, _ => rfl
  | .cons key (.scalar v) rest, k, h => by
    rw [dictGet] at h
    by_cases hk : key = k
    · rw [if_pos hk] at h
      exact Option.noConfusion h
    · rw [if_neg hk] at h
      rw [show pruneD (.cons key (.scalar v) rest) = .cons key (.scalar v) (pruneD rest) from rfl,
        dictGet, if_neg hk]
      exact dictGet_pruneD_none rest k h
  | .cons key (.dict sub) rest, k, h => by
    rw [dictGet] at h
    by_cases hk : key = k
    · rw [if_pos hk] at h
      exact Option.noConfusion h
    · rw [if_neg hk] at h
      rw [show pruneD (.cons key (.dict sub) rest) =
          (match pruneD sub with
           | .nil => pruneD rest
           | .cons a b c => .cons key (.dict (.cons a b c)) (pruneD rest)) from rfl]
      match hps : pruneD sub with
      | .nil =>
        exact dictGet_pruneD_none rest k h
      | .cons a b c =>
        rw [dictGet, if_neg hk]
        exact dictGet_pruneD_none rest k h

theorem lookupPath_of_pruneD_nil : ∀ (d : PyDict), pruneD d = .nil →
    ∀ q, lookupPath d q = none
  | .nil, _, q => lookupPath_entries_nil
  | .cons key (.scalar v) rest, h, _ => by
    rw [show pruneD (.cons key (.scalar v) rest) = .cons key (.scalar v) (pruneD rest) from rfl] at h
    exact PyEntries.noConfusion h
  | .cons key (.dict sub) rest, h, q => by
    rw [show pruneD (.cons key (.dict sub) rest) =
        (match pruneD sub with
         | .nil => pruneD rest
         | .cons a b c => .cons key (.dict (.cons a b c)) (pruneD rest)) from rfl] at h
    match hps : pruneD sub with
    | .cons a b c =>
      rw [hps] at h
      exact PyEntries.noConfusion h
    | .nil =>
      rw [hps] at h
      match q with
      | [] => rfl
      | k :: qr =>
        by_cases hk : key = k
        · subst hk
          have hget : dictGet (.cons key (.dict sub) rest) key = some (.dict sub) := by
            rw [dictGet, if_pos rfl]
          rw [lookupPath_cons_dict hget]
          by_cases hqr : qr = []
          · rw [if_pos hqr]
          · rw [if_neg hqr]
            exact lookupPath_of_pruneD_nil sub hps qr
        · have hget : dictGet (.cons key (.dict sub) rest) k = dictGet rest k := by
            rw [dictGet, if_neg hk]
          rw [lookupPath_cons_unfold, hget, ← lookupPath_cons_unfold]
          exact lookupPath_of_pruneD_nil rest h (k :: qr)

theorem lookupPath_pruneD : ∀ (d : PyDict), cleanD d = true →
    ∀ q, lookupPath (pruneD d) q = lookupPath d q
  | .nil, _, _ => rfl
  | .cons key (.scalar v) rest, hc, q => by
    obtain ⟨_, _, _, _, hrest⟩ := cleanD_cons hc
    rw [show pruneD (.cons key (.scalar v) rest) = .cons key (.scalar v) (pruneD rest) from rfl]
    match q with
    | [] => rfl
    | k :: qr =>
      by_cases hk : key = k
      · have hg1 : dictGet (.cons key (.scalar v) (pruneD rest)) k = some (.scalar v) := by
          rw [dictGet, if_pos hk]
        have hg2 : dictGet (.cons key (.scalar v) rest) k = some (.scalar v) := by
          rw [dictGet, if_pos hk]
        rw [lookupPath_cons_unfold, hg1, lookupPath_cons_unfold (.cons key (.scalar v) rest), hg2]
      · have hg1 : dictGet (.cons key (.scalar v) (pruneD rest)) k = dictGet (pruneD rest) k := by
          rw [dictGet, if_neg hk]
        have hg2 : dictGet (.cons key (.scalar v) rest) k = dictGet rest k := by
          rw [dictGet, if_neg hk]
        rw [lookupPath_cons_unfold, hg1, ← lookupPath_cons_unfold,
          lookupPath_cons_unfold (.cons key (.scalar v) rest), hg2, ← lookupPath_cons_unfold]
        exact lookupPath_pruneD rest hrest (k :: qr)
  | .cons key (.dict sub) rest, hc, q => by
    obtain ⟨_, _, hnod, hsub, hrest⟩ := cleanD_cons hc
    rw [show pruneD (.cons key (.dict sub) rest) =
        (match pruneD sub with
         | .nil => pruneD rest
         | .cons a b c => .cons key (.dict (.cons a b c)) (pruneD rest)) from rfl]
    match hps : pruneD sub with
    | .nil =>
      show lookupPath (pruneD rest) q = lookupPath (.cons key (.dict sub) rest) q
      match q with
      | [] => rfl
      | k :: qr =>
        by_cases hk : key = k
        · subst hk
          have hg2 : dictGet (.cons key (.dict sub) rest) key = some (.dict sub) := by
            rw [dictGet, if_pos rfl]
          have hgr : dictGet (pruneD rest) key = none := dictGet_pruneD_none rest key hnod
          rw [lookupPath_cons_dict hg2, lookupPath_cons_none hgr]
          by_cases hqr : qr = []
          · rw [if_pos hqr]
          · rw [if_neg hqr, lookupPath_of_pruneD_nil sub hps qr]
        · have hg2 : dictGet (.cons key (.dict sub) rest) k = dictGet rest k := by
            rw [dictGet, if_neg hk]
          rw [lookupPath_cons_unfold (.cons key (.dict sub) rest), hg2, ← lookupPath_cons_unfold]
          exact lookupPath_pruneD rest hrest (k :: qr)
    | .cons a b c =>
      show lookupPath (.cons key (.dict (.cons a b c)) (pruneD rest)) q =
        lookupPath (.cons key (.dict sub) rest) q
      match q with
      | [] => rfl
      | k :: qr =>
        by_cases hk : key = k
        · subst hk
          have hg1 : dictGet (.cons key (.dict (.cons a b c)) (pruneD rest)) key =
              some (.dict (.cons a b c)) := by
            rw [dictGet, if_pos rfl]
          have hg2 : dictGet (.cons key (.dict sub) rest) key = some (.dict sub) := by
            rw [dictGet, if_pos rfl]
          rw [lookupPath_cons_dict hg1, lookupPath_cons_dict hg2]
          by_cases hqr : qr = []
          · rw [if_pos hqr, if_pos hqr]
          · rw [if_neg hqr, if_neg hqr, ← hps]
            exact lookupPath_pruneD sub hsub qr
        · have hg1 : dictGet (.cons key (.dict (.cons a b c)) (pruneD rest)) k =
              dictGet (pruneD rest) k := by
            rw [dictGet, if_neg hk]
          have hg2 : dictGet (.cons key (.dict sub) rest) k = dictGet rest k := by
            rw [dictGet, if_neg hk]
          rw [lookupPath_cons_unfold, hg1, ← lookupPath_cons_unfold,
            lookupPath_cons_unfold (.cons key (.dict sub) rest), hg2, ← lookupPath_cons_unfold]
          exact lookupPath_pruneD rest hrest (k :: qr)

theorem find_congr {α : Type} {p p' : α → Bool} : ∀ {l : List α},
    (∀ x ∈ l, p x = p' x) → l.find? p = l.find? p'
  | [], _ => rfl
  | a :: t, h => by
    have ha := h a (List.mem_cons_self a t)
    by_cases hp : p a = true
    · rw [List.find?_cons_of_pos _ hp, List.find?_cons_of_pos _ (ha ▸ hp)]
    · have hp' : ¬(p' a = true) := fun he => hp (ha.trans he)
      rw [List.find?_cons_of_neg _ hp, List.find?_cons_of_neg _ hp']
      exact find_congr (fun x hx => h x (List.mem_cons_of_mem a hx))

theorem find_eq_some_of_unique {α : Type} {pd : α → Bool} : ∀ (l : List α),
    l.Pairwise (fun a b => ¬(pd a = true ∧ pd b = true)) →
    ∀ x, x ∈ l → pd x = true → l.find? pd = some x
  | [], _, x, hx, _ => absurd hx (List.not_mem_nil x)
  | a :: t, hpw, x, hx, hpx => by
    rcases List.pairwise_cons.mp hpw with ⟨hhead, htail⟩
    by_cases hpa : pd a = true
    · rw [List.find?_cons_of_pos _ hpa]
      rcases List.mem_cons.mp hx with rfl | hxt
      · rfl
      · exact absurd ⟨hpa, hpx⟩ (hhead x hxt)
    · rw [List.find?_cons_of_neg _ hpa]
      rcases List.mem_cons.mp hx with rfl | hxt
      · exact absurd hpx hpa
      · exact find_eq_some_of_unique t htail x hxt hpx

theorem find_eq_of_perm {α : Type} {pd : α → Bool} {l L : List α} (hperm : l.Perm L)
    (hpw : L.Pairwise (fun a b => ¬(pd a = true ∧ pd b = true))) :
    l.find? pd = L.find? pd := by
  have hpwl : l.Pairwise (fun a b => ¬(pd a = true ∧ pd b = true)) :=
    (hperm.pairwise_iff (fun hab hba => hab ⟨hba.2, hba.1⟩)).mpr hpw
  match hf : L.find? pd with
  | some y =>
    exact find_eq_some_of_unique l hpwl y (hperm.mem_iff.mpr (List.mem_of_find?_eq_some hf))
      (List.find?_some hf)
  | none =>
    rw [List.find?_eq_none] at hf ⊢
    intro x hx
    exact hf x (hperm.mem_iff.mp hx)

theorem find_cons_pos {α : Type} (p : α → Bool) (a : α) (l : List α) (h : p a = true) :
    (a :: l).find? p = some a := by
  rw [List.find?_cons, h]

theorem find_cons_neg {α : Type} (p : α → Bool) (a : α) (l : List α) (h : p a = false) :
    (a :: l).find? p = l.find? p := by
  rw [List.find?_cons, h]

theorem lookupPath_eq_find : ∀ (d : PyDict), cleanD d = true → ∀ q,
    lookupPath d q =
      (match (leafPaths d).find? (fun p => decide (p.1 = q)) with
       | some p => some p.2
       | none => none)
  | .nil, _, q => by
    rw [lookupPath_entries_nil]
    rfl
  | .cons key (.scalar v) rest, hc, q => by
    obtain ⟨_, _, hnod, _, hrest⟩ := cleanD_cons hc
    rw [show leafPaths (.cons key (.scalar v) rest) = ([key], v) :: leafPaths rest from rfl]
    match q with
    | [] =>
      rw [find_cons_neg (fun p => decide (p.1 = ([] : List PyStr))) ([key], v)
        (leafPaths rest) (by simp)]
      show (none : Option Int) =
        (match (leafPaths rest).find? (fun p => decide (p.1 = [])) with
         | some p => some p.2
         | none => none)
      rw [← lookupPath_eq_find rest hrest []]
      rfl
    | k :: qr =>
      by_cases hk : key = k
      · subst hk
        have hget : dictGet (.cons key (.scalar v) rest) key = some (.scalar v) := by
          rw [dictGet, if_pos rfl]
        rw [lookupPath_cons_scalar hget]
        by_cases hqr : qr = []
        · subst hqr
          rw [if_pos rfl, find_cons_pos (fun p => decide (p.1 = [key])) ([key], v)
            (leafPaths rest) (by simp)]
        · rw [if_neg hqr]
          have hpred : ((fun p => decide (p.1 = key :: qr)) (([key], v) : List PyStr × Int))
              = false := by
            simp only [decide_eq_false_iff_not]
            intro he
            injection he with _ h2
            exact hqr h2.symm
          rw [find_cons_neg (fun p => decide (p.1 = key :: qr)) ([key], v)
            (leafPaths rest) hpred, ← lookupPath_eq_find rest hrest (key :: qr),
            lookupPath_cons_none hnod]
      · have hget : dictGet (.cons key (.scalar v) rest) k = dictGet rest k := by
          rw [dictGet, if_neg hk]
        rw [lookupPath_cons_unfold, hget, ← lookupPath_cons_unfold]
        have hpred : ((fun p => decide (p.1 = k :: qr)) (([key], v) : List PyStr × Int))
            = false := by
          simp only [decide_eq_false_iff_not]
          intro he
          injection he with h1 _
          exact hk h1
        rw [find_cons_neg (fun p => decide (p.1 = k :: qr)) ([key], v)
          (leafPaths rest) hpred]
        exact lookupPath_eq_find rest hrest (k :: qr)
  | .cons key (.dict sub) rest, hc, q => by
    obtain ⟨_, _, hnod, hsub, hrest⟩ := cleanD_cons hc
    rw [show leafPaths (.cons key (.dict sub) rest) =
        (leafPaths sub).map (fun p => (key :: p.1, p.2)) ++ leafPaths rest from rfl,
      List.find?_append, List.find?_map]
    match q with
    | [] =>
      have hmapped : (leafPaths sub).find?
          ((fun p => decide (p.1 = ([] : List PyStr))) ∘ (fun p => (key :: p.1, p.2))) = none := by
        rw [List.find?_eq_none]
        intro x _
        simp
      rw [hmapped]
      show (none : Option Int) =
        (match (leafPaths rest).find? (fun p => decide (p.1 = [])) with
         | some p => some p.2
         | none => none)
      rw [← lookupPath_eq_find rest hrest []]
      rfl
    | k :: qr =>
      by_cases hk : key = k
      · subst hk
        have hget : dictGet (.cons key (.dict sub) rest) key = some (.dict sub) := by
          rw [dictGet, if_pos rfl]
        rw [lookupPath_cons_dict hget]
        have hrestfind : (leafPaths rest).find? (fun p => decide (p.1 = key :: qr)) = none := by
          rw [List.find?_eq_none]
          intro x hx
          simp only [decide_eq_true_eq]
          intro he
          rcases leafPaths_head_mem rest x hx with ⟨k2, t2, hx1, hx2⟩
          rw [hx1] at he
          injection he with h1 _
          rw [h1, hnod] at hx2
          cases hx2
        by_cases hqr : qr = []
        · subst hqr
          have hmapped : (leafPaths sub).find?
              ((fun p => decide (p.1 = [key])) ∘ (fun p => (key :: p.1, p.2))) = none := by
            rw [List.find?_eq_none]
            intro x hx
            simp only [Function.comp_apply, decide_eq_true_eq]
            intro he
            rcases leafPaths_head_mem sub x hx with ⟨k2, t2, hx1, _⟩
            rw [hx1] at he
            injection he with _ h2
            exact List.noConfusion h2
          rw [if_pos rfl, hmapped, hrestfind]
          rfl
        · rw [if_neg hqr]
          have hpeq : ((fun p => decide (p.1 = key :: qr)) ∘
              (fun (p : List PyStr × Int) => (key :: p.1, p.2))) =
              (fun p => decide (p.1 = qr)) := by
            funext x
            simp
          rw [hpeq]
          rw [lookupPath_eq_find sub hsub qr]
          match hfs : (leafPaths sub).find? (fun p => decide (p.1 = qr)) with
          | some p0 => rw [hfs]; rfl
          | none => rw [hfs, hrestfind]; rfl
      · have hget : dictGet (.cons key (.dict sub) rest) k = dictGet rest k := by
          rw [dictGet, if_neg hk]
        rw [lookupPath_cons_unfold, hget, ← lookupPath_cons_unfold]
        have hmapped : (leafPaths sub).find?
            ((fun p => decide (p.1 = k :: qr)) ∘ (fun p => (key :: p.1, p.2))) = none := by
          rw [List.find?_eq_none]
          intro x _
          simp only [Function.comp_apply, decide_eq_true_eq]
          intro he
          injection he with h1 _
          exact hk h1
        rw [hmapped]
        exact lookupPath_eq_find rest hrest (k :: qr)

theorem extract_pairwise (M : PyDict) (hM : cleanD M = true) :
    (extract_keys M []).Pairwise (fun a b =>
      leadB (splitChar '.' a.1) (splitChar '.' b.1) = false ∧
      leadB (splitChar '.' b.1) (splitChar '.' a.1) = false) := by
  rw [extract_keys_eq_leafPaths M [] hM, List.pairwise_map]
  refine List.Pairwise.imp_of_mem (fun {a b} ha hb hab => ?_) (leafPaths_pairwise M hM)
  have hca := leafPaths_clean M hM a ha
  have hcb := leafPaths_clean M hM b hb
  have hda : dotJoin [] a.1 = joinChar '.' a.1 := by rw [dotJoin, if_pos rfl]
  have hdb : dotJoin [] b.1 = joinChar '.' b.1 := by rw [dotJoin, if_pos rfl]
  show leadB (splitChar '.' (dotJoin [] a.1)) (splitChar '.' (dotJoin [] b.1)) = false ∧
    leadB (splitChar '.' (dotJoin [] b.1)) (splitChar '.' (dotJoin [] a.1)) = false
  rw [hda, hdb, splitChar_joinChar_clean a.1 (fun e he c hc => (hca.2 e he).2 c hc) hca.1,
    splitChar_joinChar_clean b.1 (fun e he c hc => (hcb.2 e he).2 c hc) hcb.1]
  exact hab

/-- C5 (amended): for every nested mapping `M` whose keys at all levels are
nonempty, dot-free and pairwise-distinct strings, feeding the
`(dotted_leaf_key, scalar)` pairs produced by `extract_keys` (flatten) into
`feed_to_nested` (unflatten) on an initially empty mapping - in any order -
yields a mapping that agrees with `M` after discarding empty sub-mappings on
every lookup path. -/
theorem claim5_flatten_unflatten (M : PyDict) (hM : cleanD M = true)
    (l : List (PyStr × Int)) (hperm : l.Perm (extract_keys M []))
    (q : List PyStr) :
    lookupPath (feedAll l .nil) q = lookupPath (pruneD M) q := by
  have hpwE := extract_pairwise M hM
  have hpwl : l.Pairwise (fun a b =>
      leadB (splitChar '.' a.1) (splitChar '.' b.1) = false ∧
      leadB (splitChar '.' b.1) (splitChar '.' a.1) = false) :=
    (hperm.pairwise_iff (fun hab => ⟨hab.2, hab.1⟩)).mpr hpwE
  rw [feedAll_lookup l .nil hpwl (fun ps hps => absurd lookupPath_entries_nil hps) q,
    lookupPath_pruneD M hM q, lookupPath_eq_find M hM q]
  have hfind : l.find? (fun p => decide (splitChar '.' p.1 = q)) =
      (extract_keys M []).find? (fun p => decide (splitChar '.' p.1 = q)) := by
    apply find_eq_of_perm hperm
    refine List.Pairwise.imp_of_mem (fun {a b} _ _ hab => ?_) hpwE
    rintro ⟨hpa, hpb⟩
    rw [decide_eq_true_eq] at hpa hpb
    have hc := hab.1
    rw [hpa, hpb, leadB_refl] at hc
    cases hc
  rw [hfind, extract_keys_eq_leafPaths M [] hM, List.find?_map]
  have hcongr : (leafPaths M).find?
      ((fun p => decide (splitChar '.' p.1 = q)) ∘
        (fun (p : List PyStr × Int) => (dotJoin [] p.1, p.2))) =
      (leafPaths M).find? (fun p => decide (p.1 = q)) := by
    apply find_congr
    intro x hx
    have hcx := leafPaths_clean M hM x hx
    simp only [Function.comp_apply]
    rw [show dotJoin [] x.1 = joinChar '.' x.1 by rw [dotJoin, if_pos rfl]]
    rw [splitChar_joinChar_clean x.1 (fun e he c hc => (hcx.2 e he).2 c hc) hcx.1]
  rw [hcongr]
  match hf : (leafPaths M).find? (fun p => decide (p.1 = q)) with
  | some p0 => rw [hf]; rfl
  | none => rw [hf, lookupPath_entries_nil]; rfl

/-- C5 counterexample: for the mapping `{"a.b": 1}` - whose single key is a
string, as the claim allows, but contains a dot - flattening and refeeding
yields `{"a": {"b": 1}}`, which disagrees with the original (pruned) mapping
at the path `["a.b"]`; the round-trip law as stated is false. -/
theorem claim5_counterexample :
    lookupPath (feedAll (extract_keys
        (.cons ['a', '.', 'b'] (.scalar 1) .nil) []) .nil) [['a', '.', 'b']] = none ∧
    lookupPath (pruneD (.cons ['a', '.', 'b'] (.scalar 1) .nil)) [['a', '.', 'b']] = some 1 :=
  ⟨rfl, rfl⟩

/-- C5 witness: the amended round-trip law applied to the clean mapping
`{"a": {"b": 1}, "c": 2}` with the flattened pairs fed in reversed order. -/
theorem claim5_witness :
    cleanD (.cons ['a'] (.dict (.cons ['b'] (.scalar 1) .nil))
      (.cons ['c'] (.scalar 2) .nil)) = true ∧
    (([(['c'], (2 : Int)), (['a', '.', 'b'], 1)]) : List (PyStr × Int)).Perm
      (extract_keys (.cons ['a'] (.dict (.cons ['b'] (.scalar 1) .nil))
        (.cons ['c'] (.scalar 2) .nil)) []) ∧
    lookupPath (feedAll ([(['c'], (2 : Int)), (['a', '.', 'b'], 1)]) .nil) [['a'], ['b']] =
      lookupPath (pruneD (.cons ['a'] (.dict (.cons ['b'] (.scalar 1) .nil))
        (.cons ['c'] (.scalar 2) .nil))) [['a'], ['b']] :=
  ⟨by decide, by decide,
    claim5_flatten_unflatten
      (.cons ['a'] (.dict (.cons ['b'] (.scalar 1) .nil)) (.cons ['c'] (.scalar 2) .nil))
      (by decide)
      ([(['c'], (2 : Int)), (['a', '.', 'b'], 1)])
      (by decide)
      [['a'], ['b']]⟩
